import Mathlib

/-!
Verification of the strpool string-interning pool.

This file gives a shallow embedding, in Lean, of the single-threaded behaviour
of the crate's storage engine and proves / refutes the frozen claims about it.

Modelling conventions:
* Strings are byte lists (`List Nat`); the crate's `&str` inputs are always
  valid UTF-8, so content fidelity is byte-list equality.
* Machine pointers become structured handles: a null pointer, a (page index,
  byte offset) pair into the small tier, or an index into the large-entry
  list.  Distinct pages and distinct large entries are distinct heap
  allocations in the code, so equality of these handles is exactly pointer
  equality of the corresponding `len_ptr` values.
* Atomics collapse to plain state passing: this is the single-threaded
  semantics, in which every compare-exchange against the observed value
  succeeds (the concurrent retry paths re-run the same code and are
  unreachable without contention).
* The build-time-seeded 64-bit hash (`hash.rs`, `ahash` with a random 32-byte
  seed fixed per build) is an arbitrary parameter `hashFn`; theorems quantify
  over it, and claims about "the" hash are settled for every function into
  2^64, which covers every possible build seed.
-/

set_option maxHeartbeats 2000000
set_option maxRecDepth 10000

namespace Strpool

/-- Page size from the source: pages are 1024 bytes, allocated 1024-aligned. -/
def PAGE_SIZE : Nat := 1024

/-- Size of `PageHeader` (a next-page pointer plus a pool back pointer, 8 bytes
each on the 64-bit targets the crate addresses). -/
def PAGE_HEADER_SIZE : Nat := 16

/-- Payload capacity of a page: `PAGE_SIZE - size_of::<PageHeader>()` = 1008. -/
def PAGE_CAPACITY : Nat := PAGE_SIZE - PAGE_HEADER_SIZE

/-- Bit 7 of a slot length byte: slot reserved, bytes not yet published. -/
def NOT_READY : Nat := 0x80

/-- Low seven bits of a slot length byte. -/
def LEN_MASK : Nat := 0x7f

/-- Payload of one small-tier page: the `entries: [u8; PAGE_CAPACITY]` array.
The page header (next pointer, pool back pointer) carries no string data and
is left abstract. -/
structure Page where
  entries : List Nat
deriving DecidableEq

/-- One large-tier allocation: the `LargeStringHeader` fields that carry data
(`len`, the stored 64-bit `hash`) together with the string bytes copied one
past the `len_zero` anchor byte.  The pool back pointer and next pointer are
represented by the entry's position in the pool's large-entry list. -/
structure LargeEntry where
  len : Nat
  hash : Nat
  data : List Nat
deriving DecidableEq

/-- State of one `PoolInner`: the small-tier page list, the large-entry list
(in list order: the order in which entries were appended at the tail), and the
reference count. -/
structure PoolState where
  pages : List Page
  larges : List LargeEntry
  refCount : Nat
deriving DecidableEq

/-- A `PoolStr` handle: either the null pointer (the empty-string sentinel),
a pointer to the length byte at offset `off` of page number `page`, or a
pointer to the `len_zero` anchor byte of large entry number `idx`. -/
inductive PoolStr where
  | nullPtr : PoolStr
  | smallPtr (page off : Nat) : PoolStr
  | largePtr (idx : Nat) : PoolStr
deriving DecidableEq

/-- Fresh pool produced by `Pool::new` / `PoolInner::new`: no pages, no large
strings, reference count 1. -/
def freshPool : PoolState := ⟨[], [], 1⟩

/-- Default page used by lookups with out-of-range indices (never reached for
handles published by the pool). -/
def emptyPage : Page := ⟨[]⟩

/-- Default large entry used by lookups with out-of-range indices (never
reached for handles published by the pool). -/
def emptyLarge : LargeEntry := ⟨0, 0, []⟩

/-- Reading one slot length byte, from `read_atomic_slot_len` (small.rs) /
`get_len` (lib.rs): returns `(bytes_to_skip, ready)`. -/
def read_atomic_slot_len (b : Nat) : Nat × Bool :=
  if b &&& NOT_READY = 0 then (b, true) else (b &&& LEN_MASK, false)

/-- Byte range `l[s..e]` of a Rust slice index expression. -/
def slice (l : List Nat) (s e : Nat) : List Nat := (l.drop s).take (e - s)

/-- Writing one small slot at length-byte offset `i`, from the reservation
path of `Page::try_intern` (small.rs) / `intern_1_127` (lib.rs): the length
byte is set to `len as u8 | NOT_READY`, the string bytes are copied to
`entries[i+1 .. i+1+len]`, then the `NOT_READY` flag is cleared.  In the
single-threaded semantics both compare-exchanges succeed. -/
def insertAt (entries : List Nat) (i : Nat) (str : List Nat) : List Nat :=
  ((((entries.set i ((str.length % 256) ||| NOT_READY)).take (i+1)) ++ str ++
      ((entries.set i ((str.length % 256) ||| NOT_READY)).drop (i + 1 + str.length))).set i
    (((str.length % 256) ||| NOT_READY) &&& LEN_MASK))

/-- Slot walk of `Page::find` (small.rs), with an explicit structural fuel:
starting at offset `i`, read each length byte; on a READY slot of the
searched length compare the bytes and return the length-byte offset on a
match; on a READY zero length byte (terminator) stop; otherwise skip the
slot.  The walk is bounded by `while i < PAGE_CAPACITY`; the offset strictly
increases each iteration, so `PAGE_CAPACITY - i` bounds the number of
remaining iterations and serves as the recursion measure (the zero-fuel arm
is reached only with `i ≥ PAGE_CAPACITY`, where the loop guard fails
anyway). -/
def pageFindFromF (entries str : List Nat) : Nat → Nat → Option Nat
  | _, 0 => none
  | i, fuel+1 =>
    if i < PAGE_CAPACITY then
      if (read_atomic_slot_len (entries.getD i 0)).2 then
        if (read_atomic_slot_len (entries.getD i 0)).1 = str.length then
          if slice entries (i+1) (i+1+(read_atomic_slot_len (entries.getD i 0)).1) = str
            then some i
          else
            pageFindFromF entries str (i + 1 + (read_atomic_slot_len (entries.getD i 0)).1)
              fuel
        else if (read_atomic_slot_len (entries.getD i 0)).1 = 0 then none
        else
          pageFindFromF entries str (i + 1 + (read_atomic_slot_len (entries.getD i 0)).1)
            fuel
      else
        pageFindFromF entries str (i + 1 + (read_atomic_slot_len (entries.getD i 0)).1) fuel
    else none

/-- Slot walk of `Page::find`, started with its full measure. -/
def pageFindFrom (entries str : List Nat) (i : Nat) : Option Nat :=
  pageFindFromF entries str i (PAGE_CAPACITY - i)

/-- Slot walk of `Page::try_intern` (small.rs), with the same structural fuel
as `pageFindFromF`: like the find walk, but on reaching the terminator slot
it reserves it when `i + 1 + str.length ≤ PAGE_CAPACITY` holds, writes the
string, and returns the length-byte offset with the updated page bytes; if
the string does not fit it gives up on this page.  A found duplicate returns
the existing offset with the page unchanged. -/
def tryInternFromF (entries str : List Nat) : Nat → Nat → Option (Nat × List Nat)
  | _, 0 => none
  | i, fuel+1 =>
    if i < PAGE_CAPACITY then
      if (read_atomic_slot_len (entries.getD i 0)).2 then
        if (read_atomic_slot_len (entries.getD i 0)).1 = str.length then
          if slice entries (i+1) (i+1+(read_atomic_slot_len (entries.getD i 0)).1) = str
            then some (i, entries)
          else
            tryInternFromF entries str (i + 1 + (read_atomic_slot_len (entries.getD i 0)).1)
              fuel
        else if (read_atomic_slot_len (entries.getD i 0)).1 = 0 then
          if i + 1 + str.length ≤ PAGE_CAPACITY then some (i, insertAt entries i str)
          else none
        else
          tryInternFromF entries str (i + 1 + (read_atomic_slot_len (entries.getD i 0)).1)
            fuel
      else
        tryInternFromF entries str (i + 1 + (read_atomic_slot_len (entries.getD i 0)).1) fuel
    else none

/-- Slot walk of `Page::try_intern`, started with its full measure. -/
def tryInternFrom (entries str : List Nat) (i : Nat) : Option (Nat × List Nat) :=
  tryInternFromF entries str i (PAGE_CAPACITY - i)

/-- Slot walk of `find_1_127` / `intern_1_127` in lib.rs, which has NO
`i < PAGE_CAPACITY` bound: the loop reads `page.entries[i]` unconditionally.
Result `some (some off)` is a match at length-byte offset `off`,
`some none` is the READY-zero terminator (the walk moves on to the next
page), and `none` marks the walk indexing `entries[i]` with
`i ≥ PAGE_CAPACITY`, which on the `[u8; PAGE_CAPACITY]` array is an
out-of-bounds index and panics in Rust.  The fuel argument is the same
structural measure as in `pageFindFromF`; with the full measure it runs out
only at `i ≥ PAGE_CAPACITY`, i.e. exactly at the out-of-bounds read. -/
def pageWalkUnboundedF (entries str : List Nat) : Nat → Nat → Option (Option Nat)
  | _, 0 => none
  | i, fuel+1 =>
    if i < PAGE_CAPACITY then
      if (read_atomic_slot_len (entries.getD i 0)).2 then
        if (read_atomic_slot_len (entries.getD i 0)).1 = str.length then
          if slice entries (i+1) (i+1+(read_atomic_slot_len (entries.getD i 0)).1) = str
            then some (some i)
          else
            pageWalkUnboundedF entries str
              (i + 1 + (read_atomic_slot_len (entries.getD i 0)).1) fuel
        else if (read_atomic_slot_len (entries.getD i 0)).1 = 0 then some none
        else
          pageWalkUnboundedF entries str
            (i + 1 + (read_atomic_slot_len (entries.getD i 0)).1) fuel
      else
        pageWalkUnboundedF entries str (i + 1 + (read_atomic_slot_len (entries.getD i 0)).1)
          fuel
    else none

/-- Slot walk of lib.rs, started with its full measure. -/
def pageWalkUnbounded (entries str : List Nat) (i : Nat) : Option (Option Nat) :=
  pageWalkUnboundedF entries str i (PAGE_CAPACITY - i)

/-- Page-list walk of `find_small` / `find_1_127`: try each page in list
order; `pidx` is the index of the first page of `pages` in the whole pool. -/
def findSmallAux (pages : List Page) (str : List Nat) (pidx : Nat) : Option PoolStr :=
  match pages with
  | [] => none
  | pg :: rest =>
    match pageFindFrom pg.entries str 0 with
    | some off => some (.smallPtr pidx off)
    | none => findSmallAux rest str (pidx + 1)

/-- Page-list walk of `intern_small` / `intern_1_127` over the existing pages:
try each page in list order; on success return the handle and the updated
page list. -/
def internSmallAux (pages : List Page) (str : List Nat) (pidx : Nat) :
    Option (PoolStr × List Page) :=
  match pages with
  | [] => none
  | pg :: rest =>
    match tryInternFrom pg.entries str 0 with
    | some (off, ents) => some (.smallPtr pidx off, Page.mk ents :: rest)
    | none =>
      match internSmallAux rest str (pidx + 1) with
      | some (h, rest2) => some (h, pg :: rest2)
      | none => none

/-- Payload of a freshly allocated page: `page.entries.fill(0)`. -/
def freshEntries : List Nat := List.replicate PAGE_CAPACITY 0

/-- Small-tier search (`find_small` / `find_1_127`): walk the page list; on a
match increment the reference count and return a handle to the slot's length
byte. -/
def PoolState.find_small (st : PoolState) (str : List Nat) : Option PoolStr × PoolState :=
  match findSmallAux st.pages str 0 with
  | some h => (some h, { st with refCount := st.refCount + 1 })
  | none => (none, st)

/-- Small-tier interning (`intern_small` / `intern_1_127`): walk the page
list re-using or reserving a slot; if every page fails, append a fresh
zero-filled page and intern there (this is the single-threaded collapse of
the allocate-and-compare-exchange retry loop: the appended page is empty, so
the restarted search succeeds on it immediately).  The final fallback arm is
unreachable for the dispatch range `1..=126` — claim C9's theorem proves the
fresh-page attempt succeeds — and is present only to keep the model total. -/
def PoolState.intern_small (st : PoolState) (str : List Nat) : PoolStr × PoolState :=
  match internSmallAux st.pages str 0 with
  | some (h, pages2) => (h, { st with pages := pages2, refCount := st.refCount + 1 })
  | none =>
    match tryInternFrom freshEntries str 0 with
    | some (off, ents) =>
      (.smallPtr st.pages.length off,
        { st with pages := st.pages ++ [Page.mk ents], refCount := st.refCount + 1 })
    | none => (.nullPtr, st)

/-- Large-entry list walk of `find_large` / `find_127_n`: compare each
entry's stored hash against the query hash; the string bytes are never
compared. -/
def findLargeAux (larges : List LargeEntry) (h : Nat) (idx : Nat) : Option Nat :=
  match larges with
  | [] => none
  | e :: rest => if e.hash = h then some idx else findLargeAux rest h (idx + 1)

/-- Large-tier search (`find_large` / `find_127_n`): hash the input, walk the
entry list by stored hash; on a match increment the reference count and
return a handle to that entry's `len_zero` anchor byte. -/
def PoolState.find_large (hashFn : List Nat → Nat) (st : PoolState) (str : List Nat) :
    Option PoolStr × PoolState :=
  match findLargeAux st.larges (hashFn str) 0 with
  | some i => (some (.largePtr i), { st with refCount := st.refCount + 1 })
  | none => (none, st)

/-- Large-tier interning (`intern_large` / `intern_127_n`): hash once, walk
the list by stored hash, return the existing entry on a match; otherwise
allocate an entry holding `(len, hash, bytes)` and append it at the tail
(the compare-exchange on the null tail pointer succeeds single-threaded). -/
def PoolState.intern_large (hashFn : List Nat → Nat) (st : PoolState) (str : List Nat) :
    PoolStr × PoolState :=
  match findLargeAux st.larges (hashFn str) 0 with
  | some i => (.largePtr i, { st with refCount := st.refCount + 1 })
  | none =>
    (.largePtr st.larges.length,
      { st with larges := st.larges ++ [⟨str.length, hashFn str, str⟩],
                refCount := st.refCount + 1 })

/-- Dispatch of `PoolInner::find` by input length: empty strings yield the
sentinel handle without touching the pool, lengths 1..=126 go to the small
tier, length 127 and up to the large tier. -/
def PoolState.find (hashFn : List Nat → Nat) (st : PoolState) (str : List Nat) :
    Option PoolStr × PoolState :=
  if str.length = 0 then (some .nullPtr, st)
  else if str.length ≤ 126 then st.find_small str
  else st.find_large hashFn str

/-- Dispatch of `PoolInner::intern` by input length, mirroring `find`. -/
def PoolState.intern (hashFn : List Nat → Nat) (st : PoolState) (str : List Nat) :
    PoolStr × PoolState :=
  if str.length = 0 then (.nullPtr, st)
  else if str.length ≤ 126 then st.intern_small str
  else st.intern_large hashFn str

/-- Dereference of a handle (`Deref for PoolStr`): the null pointer yields
the empty string; otherwise the byte under the pointer is read — a nonzero
value is a small slot's length, with the bytes starting one past the pointer;
a zero value marks a large entry, whose true length is read from the header
reached by subtracting the fixed `LARGE_STR_ADVANCE` offset, again with the
bytes starting one past the anchor.  A zero byte can never sit under a
published small-slot handle, so the corresponding arm (which in the code
would reinterpret page memory as a large header) is modelled as empty. -/
def PoolState.deref (st : PoolState) : PoolStr → List Nat
  | .nullPtr => []
  | .smallPtr p i =>
    let ents := (st.pages.getD p emptyPage).entries
    let len := ents.getD i 0
    if len = 0 then [] else slice ents (i+1) (i+1+len)
  | .largePtr idx =>
    let e := st.larges.getD idx emptyLarge
    e.data.take e.len

/-- Handle equality (`PartialEq for PoolStr`, traits.rs): pointer equality,
with a fall-back byte-for-byte comparison of the dereferenced contents
(required by the duplicate policy). -/
def poolStrEq (st : PoolState) (a b : PoolStr) : Bool :=
  decide (a = b) || decide (st.deref a = st.deref b)

/-- Handle clone (`Clone for PoolStr`): a non-null handle increments its
pool's reference count; the null handle touches nothing. -/
def PoolState.cloneStr (st : PoolState) (h : PoolStr) : PoolStr × PoolState :=
  match h with
  | .nullPtr => (.nullPtr, st)
  | x => (x, { st with refCount := st.refCount + 1 })

/-- Handle drop (`Drop for PoolStr`): a non-null handle decrements its pool's
reference count; the boolean reports whether this decrement took the count
from 1 to 0, which is exactly when `deep_drop_pool` reclaims the whole pool
graph.  The null handle touches nothing. -/
def PoolState.dropStr (st : PoolState) (h : PoolStr) : PoolState × Bool :=
  match h with
  | .nullPtr => (st, false)
  | _ => ({ st with refCount := st.refCount - 1 }, st.refCount == 1)

/-- Pool clone (`Clone for Pool`): increments the reference count. -/
def PoolState.clonePool (st : PoolState) : PoolState :=
  { st with refCount := st.refCount + 1 }

/-- Pool drop (`Drop for Pool`): decrements the reference count; the boolean
reports whether reclamation ran (the decrement took the count from 1 to 0). -/
def PoolState.dropPool (st : PoolState) : PoolState × Bool :=
  ({ st with refCount := st.refCount - 1 }, st.refCount == 1)

/-- Interning a list of strings in order on one pool. -/
def internAll (hashFn : List Nat → Nat) (st : PoolState) : List (List Nat) → PoolState
  | [] => st
  | s :: rest => internAll hashFn (st.intern hashFn s).2 rest

/-- Encoding of a list of published slots as page payload bytes: each slot is
its length byte followed by its content bytes. -/
def encodeSlots : List (List Nat) → List Nat
  | [] => []
  | c :: rest => c.length :: (c ++ encodeSlots rest)

/-- Number of payload bytes used by a list of slots. -/
def usedLen (slots : List (List Nat)) : Nat := (encodeSlots slots).length

/-- Full page payload encoding a list of slots: the packed slots followed by
zero bytes (the terminator and the untouched zero-filled tail). -/
def pageOf (slots : List (List Nat)) : List Nat :=
  encodeSlots slots ++ List.replicate (PAGE_CAPACITY - usedLen slots) 0

/-- Length-byte offset of the first slot holding `str`, walking from offset
`i`. -/
def slotOffsetAux : List (List Nat) → List Nat → Nat → Option Nat
  | [], _, _ => none
  | c :: rest, str, i => if c = str then some i else slotOffsetAux rest str (i + 1 + c.length)

/-- Length-byte offsets and lengths of all slots, walking from offset `i`. -/
def slotStarts : List (List Nat) → Nat → List (Nat × Nat)
  | [], _ => []
  | c :: rest, i => (i, c.length) :: slotStarts rest (i + 1 + c.length)

/-- Wellformedness of slot contents: small-tier slots hold 1 to 126 bytes. -/
def WFslots (slots : List (List Nat)) : Prop :=
  ∀ c ∈ slots, 1 ≤ c.length ∧ c.length ≤ 126

/-- A page is an encoding of wellformed slots whose contents satisfy `P`. -/
def Page.Inv (pg : Page) (P : List Nat → Prop) : Prop :=
  ∃ slots, WFslots slots ∧ usedLen slots ≤ PAGE_CAPACITY ∧
    pg.entries = pageOf slots ∧ ∀ c ∈ slots, P c

/-- Pool invariant: every page encodes wellformed slots with contents in `P`;
every large entry records its own length, its own hash under the build's hash
function, has large-tier length, and content in `P`. -/
def PoolState.Inv (hashFn : List Nat → Nat) (P : List Nat → Prop) (st : PoolState) : Prop :=
  (∀ pg ∈ st.pages, pg.Inv P) ∧
    ∀ e ∈ st.larges,
      e.len = e.data.length ∧ e.hash = hashFn e.data ∧ 127 ≤ e.data.length ∧ P e.data

/-- Plain wellformedness: the pool invariant with no content restriction. -/
def PoolState.WF (hashFn : List Nat → Nat) (st : PoolState) : Prop :=
  st.Inv hashFn (fun _ => True)

/-- Operations of the reference-counting surface.  Handle operations are
tracked by count: `cloneLive` / `dropLive` act on some live non-null handle,
`cloneEmpty` / `dropEmpty` on the null sentinel. -/
inductive PoolOp where
  | internOp (s : List Nat) : PoolOp
  | findOp (s : List Nat) : PoolOp
  | clonePoolOp : PoolOp
  | dropPoolOp : PoolOp
  | cloneLive : PoolOp
  | dropLive : PoolOp
  | cloneEmpty : PoolOp
  | dropEmpty : PoolOp
deriving DecidableEq

/-- A pool state together with the number of live `Pool` clones and the
number of live non-null handles referring to it. -/
structure RcConfig where
  st : PoolState
  pools : Nat
  handles : Nat
deriving DecidableEq

/-- One step of the reference-counting state machine.  An operation is legal
(`some`) when the caller actually holds what the operation consumes: a live
pool clone for pool operations and for `intern` / `find`, a live non-null
handle for `cloneLive` / `dropLive`.  Null-handle operations touch nothing
(`PoolStr::empty` holds no reference). -/
def rcStep (hashFn : List Nat → Nat) (cfg : RcConfig) : PoolOp → Option RcConfig
  | .internOp s =>
    if cfg.pools = 0 then none
    else
      some ⟨(cfg.st.intern hashFn s).2, cfg.pools,
        cfg.handles + (if (cfg.st.intern hashFn s).1 = .nullPtr then 0 else 1)⟩
  | .findOp s =>
    if cfg.pools = 0 then none
    else
      some ⟨(cfg.st.find hashFn s).2, cfg.pools,
        cfg.handles +
          (match (cfg.st.find hashFn s).1 with
           | some h => if h = .nullPtr then 0 else 1
           | none => 0)⟩
  | .clonePoolOp =>
    if cfg.pools = 0 then none
    else some ⟨cfg.st.clonePool, cfg.pools + 1, cfg.handles⟩
  | .dropPoolOp =>
    if cfg.pools = 0 then none
    else some ⟨(cfg.st.dropPool).1, cfg.pools - 1, cfg.handles⟩
  | .cloneLive =>
    if cfg.handles = 0 then none
    else some ⟨{ cfg.st with refCount := cfg.st.refCount + 1 }, cfg.pools, cfg.handles + 1⟩
  | .dropLive =>
    if cfg.handles = 0 then none
    else some ⟨{ cfg.st with refCount := cfg.st.refCount - 1 }, cfg.pools, cfg.handles - 1⟩
  | .cloneEmpty => some cfg
  | .dropEmpty => some cfg

/-- Running a list of operations from a configuration. -/
def rcRunFrom (hashFn : List Nat → Nat) (cfg : RcConfig) : List PoolOp → Option RcConfig
  | [] => some cfg
  | op :: rest =>
    match rcStep hashFn cfg op with
    | some cfg2 => rcRunFrom hashFn cfg2 rest
    | none => none

/-- Initial configuration: `Pool::new()` — a fresh inner pool with reference
count 1, one live pool clone, no handles. -/
def rcInit : RcConfig := ⟨freshPool, 1, 0⟩

/-- Running a list of operations from `Pool::new()`. -/
def rcRun (hashFn : List Nat → Nat) (ops : List PoolOp) : Option RcConfig :=
  rcRunFrom hashFn rcInit ops

theorem and_notready_eq_zero {b : Nat} (hb : b < 128) : b &&& NOT_READY = 0 := by
  show b &&& 128 = 0
  have h128 : (128 : Nat) = 2 ^ 7 := by norm_num
  have h7 : b.testBit 7 = false := Nat.testBit_lt_two_pow (by omega)
  rw [h128, Nat.and_two_pow, h7]
  rfl

theorem read_ready {b : Nat} (hb : b < 128) : read_atomic_slot_len b = (b, true) := by
  unfold read_atomic_slot_len
  rw [if_pos (and_notready_eq_zero hb)]

theorem marked_and_mask {n : Nat} (hn : n ≤ 126) :
    ((n % 256) ||| NOT_READY) &&& LEN_MASK = n := by
  have hm : n % 256 = n := Nat.mod_eq_of_lt (by omega)
  rw [hm]
  show (n ||| 128) &&& 127 = n
  apply Nat.eq_of_testBit_eq
  intro i
  have h128 : (128 : Nat) = 2 ^ 7 := by norm_num
  have h127 : (127 : Nat) = 2 ^ 7 - 1 := by norm_num
  rw [Nat.testBit_and, Nat.testBit_or, h128, h127, Nat.testBit_two_pow,
    Nat.testBit_two_pow_sub_one]
  by_cases hi : i < 7
  · have hne : ¬ (7 = i) := by omega
    simp [hi, hne]
  · have hpow : (2:Nat) ^ 7 ≤ 2 ^ i := Nat.pow_le_pow_right (by norm_num) (by omega)
    have hb : n.testBit i = false := Nat.testBit_lt_two_pow (by omega)
    simp [hi, hb]

theorem getD_eq_headD_drop (l : List Nat) (i : Nat) : l.getD i 0 = (l.drop i).headD 0 := by
  induction i generalizing l with
  | zero => cases l <;> rfl
  | succ n ih =>
    cases l with
    | nil => rfl
    | cons a t => simpa using ih t

theorem getD_of_drop_cons {l t : List Nat} {x i : Nat} (h : l.drop i = x :: t) :
    l.getD i 0 = x := by
  rw [getD_eq_headD_drop, h]
  rfl

theorem drop_of_drop_cons {l t : List Nat} {x i : Nat} (h : l.drop i = x :: t) :
    l.drop (i + 1) = t := by
  have h2 := List.drop_drop 1 i l
  rw [h] at h2
  simpa using h2.symm

theorem slice_of_drop_append {l c t : List Nat} {i : Nat} (h : l.drop i = c ++ t) :
    slice l i (i + c.length) = c := by
  unfold slice
  rw [h]
  have h2 : i + c.length - i = c.length := by omega
  rw [h2, List.take_left]

theorem drop_add_of_drop_append {l c t : List Nat} {i : Nat} (h : l.drop i = c ++ t) :
    l.drop (i + c.length) = t := by
  have h2 := List.drop_drop c.length i l
  rw [h, List.drop_left] at h2
  exact h2.symm

theorem usedLen_nil : usedLen [] = 0 := rfl

theorem usedLen_cons (c : List Nat) (rest : List (List Nat)) :
    usedLen (c :: rest) = 1 + c.length + usedLen rest := by
  simp [usedLen, encodeSlots]
  omega

theorem encodeSlots_append (a b : List (List Nat)) :
    encodeSlots (a ++ b) = encodeSlots a ++ encodeSlots b := by
  induction a with
  | nil => rfl
  | cons c rest ih => simp [encodeSlots, ih]

theorem usedLen_append (a b : List (List Nat)) :
    usedLen (a ++ b) = usedLen a + usedLen b := by
  simp [usedLen, encodeSlots_append]

theorem pageOf_length {slots : List (List Nat)} (h : usedLen slots ≤ PAGE_CAPACITY) :
    (pageOf slots).length = PAGE_CAPACITY := by
  unfold pageOf
  unfold usedLen at h ⊢
  simp
  omega

theorem pageOf_nil : pageOf [] = freshEntries := by
  simp [pageOf, freshEntries, encodeSlots, usedLen]

theorem pageFindFromF_ge (entries str : List Nat) :
    ∀ (fuel i : Nat), PAGE_CAPACITY ≤ fuel + i →
      pageFindFromF entries str i fuel = pageFindFrom entries str i := by
  intro fuel
  induction fuel using Nat.strong_induction_on with
  | _ fuel ih =>
    intro i h
    rcases fuel with _ | fuel2
    · rw [pageFindFrom, show PAGE_CAPACITY - i = 0 from by omega]
    · by_cases hi : i < PAGE_CAPACITY
      · rw [pageFindFrom, show PAGE_CAPACITY - i = (PAGE_CAPACITY - i - 1) + 1 from by omega]
        simp only [pageFindFromF]
        rw [if_pos hi, if_pos hi]
        have e1 := ih fuel2 (by omega)
          (i + 1 + (read_atomic_slot_len (entries.getD i 0)).1) (by omega)
        have e2 := ih (PAGE_CAPACITY - i - 1) (by omega)
          (i + 1 + (read_atomic_slot_len (entries.getD i 0)).1) (by omega)
        rw [e1, e2]
      · rw [pageFindFrom, show PAGE_CAPACITY - i = 0 from by omega]
        simp only [pageFindFromF]
        rw [if_neg hi]

theorem pageFindFrom_oob (entries str : List Nat) (i : Nat) (hi : ¬ i < PAGE_CAPACITY) :
    pageFindFrom entries str i = none := by
  rw [pageFindFrom, show PAGE_CAPACITY - i = 0 from by omega]
  rfl

theorem pageFindFrom_step (entries str : List Nat) (i len : Nat)
    (hi : i < PAGE_CAPACITY) (hb : entries.getD i 0 = len) (hlen : len < 128) :
    pageFindFrom entries str i =
      if len = str.length then
        (if slice entries (i+1) (i+1+len) = str then some i
         else pageFindFrom entries str (i + 1 + len))
      else if len = 0 then none
      else pageFindFrom entries str (i + 1 + len) := by
  rw [pageFindFrom, show PAGE_CAPACITY - i = (PAGE_CAPACITY - i - 1) + 1 from by omega]
  rw [pageFindFromF, if_pos hi]
  rw [pageFindFromF_ge entries str (PAGE_CAPACITY - i - 1)
    (i + 1 + (read_atomic_slot_len (entries.getD i 0)).1) (by omega)]
  rw [hb, read_ready hlen]
  rfl

theorem tryInternFromF_ge (entries str : List Nat) :
    ∀ (fuel i : Nat), PAGE_CAPACITY ≤ fuel + i →
      tryInternFromF entries str i fuel = tryInternFrom entries str i := by
  intro fuel
  induction fuel using Nat.strong_induction_on with
  | _ fuel ih =>
    intro i h
    rcases fuel with _ | fuel2
    · rw [tryInternFrom, show PAGE_CAPACITY - i = 0 from by omega]
    · by_cases hi : i < PAGE_CAPACITY
      · rw [tryInternFrom, show PAGE_CAPACITY - i = (PAGE_CAPACITY - i - 1) + 1 from by omega]
        simp only [tryInternFromF]
        rw [if_pos hi, if_pos hi]
        have e1 := ih fuel2 (by omega)
          (i + 1 + (read_atomic_slot_len (entries.getD i 0)).1) (by omega)
        have e2 := ih (PAGE_CAPACITY - i - 1) (by omega)
          (i + 1 + (read_atomic_slot_len (entries.getD i 0)).1) (by omega)
        rw [e1, e2]
      · rw [tryInternFrom, show PAGE_CAPACITY - i = 0 from by omega]
        simp only [tryInternFromF]
        rw [if_neg hi]

theorem tryInternFrom_oob (entries str : List Nat) (i : Nat) (hi : ¬ i < PAGE_CAPACITY) :
    tryInternFrom entries str i = none := by
  rw [tryInternFrom, show PAGE_CAPACITY - i = 0 from by omega]
  rfl

theorem tryInternFrom_step (entries str : List Nat) (i len : Nat)
    (hi : i < PAGE_CAPACITY) (hb : entries.getD i 0 = len) (hlen : len < 128) :
    tryInternFrom entries str i =
      if len = str.length then
        (if slice entries (i+1) (i+1+len) = str then some (i, entries)
         else tryInternFrom entries str (i + 1 + len))
      else if len = 0 then
        (if i + 1 + str.length ≤ PAGE_CAPACITY then some (i, insertAt entries i str)
         else none)
      else tryInternFrom entries str (i + 1 + len) := by
  rw [tryInternFrom, show PAGE_CAPACITY - i = (PAGE_CAPACITY - i - 1) + 1 from by omega]
  rw [tryInternFromF, if_pos hi]
  rw [tryInternFromF_ge entries str (PAGE_CAPACITY - i - 1)
    (i + 1 + (read_atomic_slot_len (entries.getD i 0)).1) (by omega)]
  rw [hb, read_ready hlen]
  rfl

theorem slotOffsetAux_eq_none {slots : List (List Nat)} {str : List Nat} :
    ∀ i, slotOffsetAux slots str i = none ↔ str ∉ slots := by
  induction slots with
  | nil => simp [slotOffsetAux]
  | cons c rest ih =>
    intro i
    by_cases hc : c = str
    · subst hc
      simp [slotOffsetAux]
    · simp [slotOffsetAux, hc, ih, Ne.symm hc]

theorem slotOffsetAux_append_self {slots : List (List Nat)} {str : List Nat}
    (h : str ∉ slots) :
    ∀ i, slotOffsetAux (slots ++ [str]) str i = some (i + usedLen slots) := by
  induction slots with
  | nil =>
    intro i
    simp [slotOffsetAux, usedLen_nil]
  | cons c rest ih =>
    intro i
    have hc : ¬ c = str := by
      intro hq
      exact h (hq ▸ List.mem_cons_self c rest)
    have hrest : str ∉ rest := fun hq => h (List.mem_cons_of_mem c hq)
    rw [List.cons_append, slotOffsetAux, if_neg hc, ih hrest, usedLen_cons]
    congr 1
    omega

/-- Encoding of a suffix of the slot list starting at offset `i`. -/
def EncFrom (entries : List Nat) (i : Nat) (slots : List (List Nat)) : Prop :=
  i + usedLen slots ≤ PAGE_CAPACITY ∧
    entries.drop i =
      encodeSlots slots ++ List.replicate (PAGE_CAPACITY - (i + usedLen slots)) 0

theorem encFrom_cons {entries : List Nat} {i : Nat} {c : List Nat}
    {rest : List (List Nat)} (h : EncFrom entries i (c :: rest)) :
    entries.getD i 0 = c.length ∧
      slice entries (i+1) ((i+1) + c.length) = c ∧
      EncFrom entries (i + 1 + c.length) rest := by
  obtain ⟨hfit, henc⟩ := h
  rw [usedLen_cons] at hfit
  have hcount : PAGE_CAPACITY - (i + usedLen (c :: rest)) =
      PAGE_CAPACITY - (i + 1 + c.length + usedLen rest) := by
    rw [usedLen_cons]
    omega
  have hdrop : entries.drop i =
      c.length ::
        (c ++ (encodeSlots rest ++
          List.replicate (PAGE_CAPACITY - (i + 1 + c.length + usedLen rest)) 0)) := by
    rw [henc, hcount]
    simp [encodeSlots]
  have h1 : entries.drop (i + 1) =
      c ++ (encodeSlots rest ++
        List.replicate (PAGE_CAPACITY - (i + 1 + c.length + usedLen rest)) 0) :=
    drop_of_drop_cons hdrop
  refine ⟨getD_of_drop_cons hdrop, slice_of_drop_append h1, ⟨by omega, ?_⟩⟩
  exact drop_add_of_drop_append h1

theorem encFrom_nil_drop {entries : List Nat} {i : Nat} (h : EncFrom entries i []) :
    entries.drop i = List.replicate (PAGE_CAPACITY - i) 0 := by
  obtain ⟨hfit, henc⟩ := h
  rw [henc]
  simp [encodeSlots, usedLen_nil]

theorem slotOffsetAux_slot_at {str : List Nat} :
    ∀ (slots : List (List Nat)) (i off : Nat) (entries : List Nat),
      EncFrom entries i slots →
      slotOffsetAux slots str i = some off →
      entries.getD off 0 = str.length ∧
        slice entries (off+1) ((off+1) + str.length) = str ∧
        off + 1 + str.length ≤ i + usedLen slots := by
  intro slots
  induction slots with
  | nil =>
    intro i off entries henc hoff
    simp [slotOffsetAux] at hoff
  | cons c rest ih =>
    intro i off entries henc hoff
    obtain ⟨hgd, hslice, henc2⟩ := encFrom_cons henc
    rw [slotOffsetAux] at hoff
    by_cases hc : c = str
    · rw [if_pos hc] at hoff
      injection hoff with hoff
      subst hoff
      subst hc
      refine ⟨hgd, hslice, ?_⟩
      rw [usedLen_cons]
      omega
    · rw [if_neg hc] at hoff
      have := ih (i + 1 + c.length) off entries henc2 hoff
      refine ⟨this.1, this.2.1, ?_⟩
      rw [usedLen_cons]
      omega

theorem pageFindFrom_spec {str : List Nat} (hstr : 1 ≤ str.length) :
    ∀ (slots : List (List Nat)) (i : Nat) (entries : List Nat),
      WFslots slots →
      EncFrom entries i slots →
      pageFindFrom entries str i = slotOffsetAux slots str i := by
  intro slots
  induction slots with
  | nil =>
    intro i entries _ henc
    have hfit := henc.1
    rw [usedLen_nil] at hfit
    by_cases hi : i < PAGE_CAPACITY
    · have hdrop : entries.drop i = 0 :: List.replicate (PAGE_CAPACITY - i - 1) 0 := by
        have hc : PAGE_CAPACITY - i = (PAGE_CAPACITY - i - 1) + 1 := by omega
        rw [encFrom_nil_drop henc, hc]
        rfl
      rw [pageFindFrom_step entries str i 0 hi (getD_of_drop_cons hdrop) (by omega)]
      have h1 : ¬ (0 = str.length) := by omega
      rw [if_neg h1, if_pos rfl]
      rfl
    · rw [pageFindFrom_oob entries str i hi]
      rfl
  | cons c rest ih =>
    intro i entries hwf henc
    have hc := hwf c (List.mem_cons_self c rest)
    have hwfrest : WFslots rest := fun x hx => hwf x (List.mem_cons_of_mem c hx)
    obtain ⟨hgd, hslice, henc2⟩ := encFrom_cons henc
    have hfit := henc.1
    rw [usedLen_cons] at hfit
    have hi : i < PAGE_CAPACITY := by omega
    rw [pageFindFrom_step entries str i c.length hi hgd (by omega), slotOffsetAux]
    by_cases hcs : c = str
    · subst hcs
      rw [if_pos rfl, if_pos hslice, if_pos rfl]
    · by_cases hlen : c.length = str.length
      · have hns : ¬ slice entries (i+1) ((i+1) + c.length) = str := by
          rw [hslice]
          exact hcs
        rw [if_pos hlen]
        rw [show (i+1) + c.length = i + 1 + c.length from rfl] at hns
        rw [if_neg hns, if_neg hcs]
        exact ih (i + 1 + c.length) entries hwfrest henc2
      · have h0 : ¬ (c.length = 0) := by omega
        rw [if_neg hlen, if_neg h0, if_neg hcs]
        exact ih (i + 1 + c.length) entries hwfrest henc2

theorem tryInternFrom_spec {str : List Nat} (hstr : 1 ≤ str.length) :
    ∀ (slots : List (List Nat)) (i : Nat) (entries : List Nat),
      WFslots slots →
      EncFrom entries i slots →
      tryInternFrom entries str i =
        match slotOffsetAux slots str i with
        | some off => some (off, entries)
        | none =>
          if (i + usedLen slots) + 1 + str.length ≤ PAGE_CAPACITY then
            some (i + usedLen slots, insertAt entries (i + usedLen slots) str)
          else none := by
  intro slots
  induction slots with
  | nil =>
    intro i entries _ henc
    have hfit := henc.1
    rw [usedLen_nil] at hfit
    rw [show slotOffsetAux [] str i = none from rfl]
    by_cases hi : i < PAGE_CAPACITY
    · have hdrop : entries.drop i = 0 :: List.replicate (PAGE_CAPACITY - i - 1) 0 := by
        have hc : PAGE_CAPACITY - i = (PAGE_CAPACITY - i - 1) + 1 := by omega
        rw [encFrom_nil_drop henc, hc]
        rfl
      rw [tryInternFrom_step entries str i 0 hi (getD_of_drop_cons hdrop) (by omega)]
      have h1 : ¬ (0 = str.length) := by omega
      rw [if_neg h1, if_pos rfl]
      rw [usedLen_nil]
      simp
    · rw [tryInternFrom_oob entries str i hi]
      rw [usedLen_nil]
      have : ¬ (i + 0 + 1 + str.length ≤ PAGE_CAPACITY) := by omega
      rw [if_neg this]
  | cons c rest ih =>
    intro i entries hwf henc
    have hc := hwf c (List.mem_cons_self c rest)
    have hwfrest : WFslots rest := fun x hx => hwf x (List.mem_cons_of_mem c hx)
    obtain ⟨hgd, hslice, henc2⟩ := encFrom_cons henc
    have hfit := henc.1
    rw [usedLen_cons] at hfit
    have hi : i < PAGE_CAPACITY := by omega
    rw [tryInternFrom_step entries str i c.length hi hgd (by omega), slotOffsetAux]
    by_cases hcs : c = str
    · subst hcs
      rw [if_pos rfl, if_pos hslice, if_pos rfl]
    · have harith : (i + 1 + c.length) + usedLen rest = i + usedLen (c :: rest) := by
        rw [usedLen_cons]
        omega
      by_cases hlen : c.length = str.length
      · have hns : ¬ slice entries (i+1) ((i+1) + c.length) = str := by
          rw [hslice]
          exact hcs
        rw [if_pos hlen]
        rw [show (i+1) + c.length = i + 1 + c.length from rfl] at hns
        rw [if_neg hns, if_neg hcs]
        rw [ih (i + 1 + c.length) entries hwfrest henc2, harith]
      · have h0 : ¬ (c.length = 0) := by omega
        rw [if_neg hlen, if_neg h0, if_neg hcs]
        rw [ih (i + 1 + c.length) entries hwfrest henc2, harith]

theorem encFrom_pageOf {slots : List (List Nat)} (h : usedLen slots ≤ PAGE_CAPACITY) :
    EncFrom (pageOf slots) 0 slots := by
  refine ⟨by omega, ?_⟩
  simp [pageOf]

theorem set_append_head {l₁ t : List Nat} {x a : Nat} :
    (l₁ ++ x :: t).set l₁.length a = l₁ ++ a :: t := by
  rw [List.set_append]
  simp

theorem take_append_head {l₁ t : List Nat} {x : Nat} :
    (l₁ ++ x :: t).take (l₁.length + 1) = l₁ ++ [x] := by
  induction l₁ with
  | nil => rfl
  | cons a r ih => simp [List.take_succ_cons, ih]

theorem drop_append_head {l₁ t : List Nat} {x : Nat} (k : Nat) :
    (l₁ ++ x :: t).drop (l₁.length + 1 + k) = t.drop k := by
  have h2 := List.drop_drop (k + 1) l₁.length (l₁ ++ x :: t)
  rw [List.drop_left] at h2
  have h3 : l₁.length + (k + 1) = l₁.length + 1 + k := by omega
  rw [h3] at h2
  simpa using h2.symm

theorem insertAt_pageOf {slots : List (List Nat)} {str : List Nat}
    (hstr2 : str.length ≤ 126)
    (hfit : usedLen slots + 1 + str.length ≤ PAGE_CAPACITY) :
    insertAt (pageOf slots) (usedLen slots) str = pageOf (slots ++ [str]) := by
  have hulen : usedLen slots = (encodeSlots slots).length := rfl
  have hrep : List.replicate (PAGE_CAPACITY - usedLen slots) 0 =
      0 :: List.replicate (PAGE_CAPACITY - usedLen slots - 1) 0 := by
    have hc : PAGE_CAPACITY - usedLen slots = (PAGE_CAPACITY - usedLen slots - 1) + 1 := by
      omega
    rw [hc]
    rfl
  unfold insertAt
  rw [show pageOf slots =
      encodeSlots slots ++
        (0 :: List.replicate (PAGE_CAPACITY - usedLen slots - 1) 0) by
    rw [pageOf, hrep]]
  rw [hulen, set_append_head]
  rw [show (encodeSlots slots).length + 1 + str.length =
      (encodeSlots slots).length + 1 + str.length from rfl]
  rw [take_append_head, drop_append_head str.length, List.drop_replicate]
  rw [List.append_assoc, List.append_assoc, List.singleton_append, set_append_head]
  rw [marked_and_mask hstr2]
  rw [pageOf, encodeSlots_append, usedLen_append]
  rw [show encodeSlots [str] = str.length :: (str ++ []) from rfl]
  simp only [List.append_nil, List.append_assoc, List.cons_append]
  have h1 : usedLen [str] = 1 + str.length := by
    rw [usedLen_cons, usedLen_nil]
    omega
  have hcnt : PAGE_CAPACITY - (encodeSlots slots).length - 1 - str.length =
      PAGE_CAPACITY - (usedLen slots + usedLen [str]) := by
    omega
  rw [hcnt]

theorem internSmallAux_none_elim {str : List Nat} :
    ∀ (pages : List Page) (pidx : Nat),
      internSmallAux pages str pidx = none →
      ∀ pg ∈ pages, tryInternFrom pg.entries str 0 = none := by
  intro pages
  induction pages with
  | nil =>
    intro pidx _ pg hpg
    exact absurd hpg (List.not_mem_nil pg)
  | cons q rest ih =>
    intro pidx hnone pg hpg
    rw [internSmallAux] at hnone
    rcases hq : tryInternFrom q.entries str 0 with _ | ⟨off, ents⟩
    · rcases List.mem_cons.mp hpg with hh | hh
      · rw [hh]
        exact hq
      · rcases hr : internSmallAux rest str (pidx + 1) with _ | ⟨h2, rest2⟩
        · exact ih (pidx + 1) hr pg hh
        · rw [hq, hr] at hnone
          simp at hnone
    · rw [hq] at hnone
      simp at hnone

theorem internSmallAux_append_none {str : List Nat} :
    ∀ (pages more : List Page) (pidx : Nat),
      internSmallAux pages str pidx = none →
      internSmallAux (pages ++ more) str pidx =
        match internSmallAux more str (pidx + pages.length) with
        | some (h, m2) => some (h, pages ++ m2)
        | none => none := by
  intro pages
  induction pages with
  | nil =>
    intro more pidx _
    simp only [List.nil_append, List.length_nil, Nat.add_zero]
    rcases hm : internSmallAux more str pidx with _ | ⟨h, m2⟩ <;> rfl
  | cons q rest ih =>
    intro more pidx hnone
    rw [internSmallAux] at hnone
    rcases hq : tryInternFrom q.entries str 0 with _ | ⟨off, ents⟩
    · rw [hq] at hnone
      have hrest : internSmallAux rest str (pidx + 1) = none := by
        rcases hr : internSmallAux rest str (pidx + 1) with _ | ⟨h2, rest2⟩
        · rfl
        · rw [hr] at hnone
          simp at hnone
      rw [List.cons_append, internSmallAux, hq, ih more (pidx + 1) hrest]
      have hl : pidx + 1 + rest.length = pidx + (q :: rest).length := by
        simp
        omega
      rw [hl]
      rcases hm : internSmallAux more str (pidx + (q :: rest).length) with _ | ⟨h, m2⟩ <;> rfl
    · rw [hq] at hnone
      simp at hnone

theorem findSmallAux_append {str : List Nat} :
    ∀ (pages more : List Page) (pidx : Nat),
      (∀ pg ∈ pages, pageFindFrom pg.entries str 0 = none) →
      findSmallAux (pages ++ more) str pidx = findSmallAux more str (pidx + pages.length) := by
  intro pages
  induction pages with
  | nil =>
    intro more pidx _
    simp [List.nil_append]
  | cons q rest ih =>
    intro more pidx hnone
    rw [List.cons_append, findSmallAux, hnone q (List.mem_cons_self q rest)]
    rw [ih more (pidx + 1) (fun pg hpg => hnone pg (List.mem_cons_of_mem q hpg))]
    have hl : pidx + 1 + rest.length = pidx + (q :: rest).length := by
      simp
      omega
    rw [hl]

theorem findSmallAux_none {str : List Nat} (hstr : 1 ≤ str.length) :
    ∀ (pages : List Page) (pidx : Nat),
      (∀ pg ∈ pages, ∃ slots, WFslots slots ∧ usedLen slots ≤ PAGE_CAPACITY ∧
        pg.entries = pageOf slots ∧ str ∉ slots) →
      findSmallAux pages str pidx = none := by
  intro pages
  induction pages with
  | nil =>
    intro pidx _
    rfl
  | cons q rest ih =>
    intro pidx hinv
    obtain ⟨slots, hwf, hcap, hent, hmem⟩ := hinv q (List.mem_cons_self q rest)
    have hfind : pageFindFrom q.entries str 0 = none := by
      rw [hent, pageFindFrom_spec hstr slots 0 (pageOf slots) hwf (encFrom_pageOf hcap)]
      exact (slotOffsetAux_eq_none 0).mpr hmem
    rw [findSmallAux, hfind]
    exact ih (pidx + 1) (fun pg hpg => hinv pg (List.mem_cons_of_mem q hpg))

theorem internSmallAux_some_spec {P : List Nat → Prop} {str : List Nat}
    (hstr1 : 1 ≤ str.length) (hstr2 : str.length ≤ 126) (hP : P str) :
    ∀ (pages : List Page) (pidx : Nat) (h : PoolStr) (pages2 : List Page),
      (∀ pg ∈ pages, pg.Inv P) →
      internSmallAux pages str pidx = some (h, pages2) →
      ∃ j off ents,
        h = PoolStr.smallPtr (pidx + j) off ∧
        pages2.getD j emptyPage = Page.mk ents ∧
        ents.getD off 0 = str.length ∧
        slice ents (off+1) ((off+1) + str.length) = str ∧
        (∀ pg ∈ pages2, pg.Inv P) ∧
        internSmallAux pages2 str pidx = some (h, pages2) ∧
        findSmallAux pages2 str pidx = some h := by
  intro pages
  induction pages with
  | nil =>
    intro pidx h pages2 _ hsome
    rw [internSmallAux] at hsome
    exact absurd hsome (by simp)
  | cons q rest ih =>
    intro pidx h pages2 hinv hsome
    obtain ⟨slots, hwf, hcap, hent, hPc⟩ := hinv q (List.mem_cons_self q rest)
    have hench : EncFrom q.entries 0 slots := by
      rw [hent]
      exact encFrom_pageOf hcap
    have hspec := tryInternFrom_spec hstr1 slots 0 q.entries hwf hench
    have hfindq := pageFindFrom_spec hstr1 slots 0 q.entries hwf hench
    rw [internSmallAux] at hsome
    rcases hoff : slotOffsetAux slots str 0 with _ | off0
    · -- no existing slot holds str in this page
      rw [hoff] at hspec
      simp only [Nat.zero_add] at hspec
      by_cases hfit : usedLen slots + 1 + str.length ≤ PAGE_CAPACITY
      · -- insertion into this page
        rw [if_pos hfit] at hspec
        rw [hspec] at hsome
        simp only [Option.some.injEq, Prod.mk.injEq] at hsome
        obtain ⟨hh, hp2⟩ := hsome
        have hmem : str ∉ slots := (slotOffsetAux_eq_none 0).mp hoff
        have hins : insertAt q.entries (usedLen slots) str = pageOf (slots ++ [str]) := by
          rw [hent]
          exact insertAt_pageOf hstr2 hfit
        have hcap2 : usedLen (slots ++ [str]) ≤ PAGE_CAPACITY := by
          rw [usedLen_append, usedLen_cons, usedLen_nil]
          omega
        have hwf2 : WFslots (slots ++ [str]) := by
          intro c hc
          rcases List.mem_append.mp hc with hc1 | hc1
          · exact hwf c hc1
          · rw [List.mem_singleton.mp hc1]
            omega
        have hoff2 : slotOffsetAux (slots ++ [str]) str 0 = some (usedLen slots) := by
          have := slotOffsetAux_append_self hmem 0
          simpa using this
        have hslotat := slotOffsetAux_slot_at (slots ++ [str]) 0 (usedLen slots)
          (pageOf (slots ++ [str])) (encFrom_pageOf hcap2) hoff2
        refine ⟨0, usedLen slots, pageOf (slots ++ [str]), ?_, ?_, hslotat.1, hslotat.2.1,
          ?_, ?_, ?_⟩
        · rw [← hh]
          rfl
        · rw [← hp2, hins]
          rfl
        · intro pg hpg
          rw [← hp2] at hpg
          rcases List.mem_cons.mp hpg with hg | hg
          · rw [hg, hins]
            refine ⟨slots ++ [str], hwf2, hcap2, rfl, ?_⟩
            intro c hc
            rcases List.mem_append.mp hc with hc1 | hc1
            · exact hPc c hc1
            · rw [List.mem_singleton.mp hc1]
              exact hP
          · exact hinv pg (List.mem_cons_of_mem q hg)
        · rw [← hp2, ← hh, internSmallAux, hins]
          have hspec2 := tryInternFrom_spec hstr1 (slots ++ [str]) 0 (pageOf (slots ++ [str]))
            hwf2 (encFrom_pageOf hcap2)
          rw [hoff2] at hspec2
          rw [show (Page.mk (pageOf (slots ++ [str]))).entries = pageOf (slots ++ [str])
            from rfl, hspec2]
        · rw [← hp2, ← hh, findSmallAux, hins]
          have hfind2 := pageFindFrom_spec hstr1 (slots ++ [str]) 0 (pageOf (slots ++ [str]))
            hwf2 (encFrom_pageOf hcap2)
          rw [hoff2] at hfind2
          rw [show (Page.mk (pageOf (slots ++ [str]))).entries = pageOf (slots ++ [str])
            from rfl, hfind2]
      · -- str does not fit in this page: move to the rest of the list
        rw [if_neg hfit] at hspec
        rw [hspec] at hsome
        rcases hr : internSmallAux rest str (pidx + 1) with _ | hrest2
        · rw [hr] at hsome
          exact absurd hsome (by simp)
        · obtain ⟨h2, rest2⟩ := hrest2
          rw [hr] at hsome
          simp only [Option.some.injEq, Prod.mk.injEq] at hsome
          obtain ⟨hh, hp2⟩ := hsome
          obtain ⟨j2, off, ents, hh2, hgd, hlen2, hslice2, hinv2, hre, hfi⟩ :=
            ih (pidx + 1) h2 rest2 (fun pg hpg => hinv pg (List.mem_cons_of_mem q hpg)) hr
          refine ⟨j2 + 1, off, ents, ?_, ?_, hlen2, hslice2, ?_, ?_, ?_⟩
          · rw [← hh, hh2]
            have : pidx + 1 + j2 = pidx + (j2 + 1) := by omega
            rw [this]
          · rw [← hp2]
            exact hgd
          · intro pg hpg
            rw [← hp2] at hpg
            rcases List.mem_cons.mp hpg with hg | hg
            · rw [hg]
              exact hinv q (List.mem_cons_self q rest)
            · exact hinv2 pg hg
          · rw [← hp2, ← hh, internSmallAux, hspec, hre]
          · rw [← hp2, ← hh, findSmallAux]
            rw [hfindq, hoff, hfi]
    · -- an existing slot already holds str
      rw [hoff] at hspec
      rw [hspec] at hsome
      simp only [Option.some.injEq, Prod.mk.injEq] at hsome
      obtain ⟨hh, hp2⟩ := hsome
      have hslotat := slotOffsetAux_slot_at slots 0 off0 q.entries hench hoff
      refine ⟨0, off0, q.entries, ?_, ?_, hslotat.1, hslotat.2.1, ?_, ?_, ?_⟩
      · rw [← hh]
        rfl
      · rw [← hp2]
        rfl
      · intro pg hpg
        rw [← hp2] at hpg
        rcases List.mem_cons.mp hpg with hg | hg
        · rw [hg]
          exact hinv q (List.mem_cons_self q rest)
        · exact hinv pg (List.mem_cons_of_mem q hg)
      · rw [← hp2, ← hh, internSmallAux]
        rw [show (Page.mk q.entries).entries = q.entries from rfl, hspec]
      · rw [← hp2, ← hh, findSmallAux]
        rw [show (Page.mk q.entries).entries = q.entries from rfl, hfindq, hoff]

theorem findLargeAux_none_iff {h : Nat} :
    ∀ (larges : List LargeEntry) (k : Nat),
      findLargeAux larges h k = none ↔ ∀ e ∈ larges, e.hash ≠ h := by
  intro larges
  induction larges with
  | nil => simp [findLargeAux]
  | cons e rest ih =>
    intro k
    by_cases he : e.hash = h
    · simp [findLargeAux, he]
    · simp [findLargeAux, he, ih]

theorem findLargeAux_append_none {h : Nat} :
    ∀ (larges more : List LargeEntry) (k : Nat),
      findLargeAux larges h k = none →
      findLargeAux (larges ++ more) h k = findLargeAux more h (k + larges.length) := by
  intro larges
  induction larges with
  | nil =>
    intro more k _
    simp [findLargeAux]
  | cons e rest ih =>
    intro more k hn
    rw [findLargeAux] at hn
    by_cases he : e.hash = h
    · rw [if_pos he] at hn
      exact absurd hn (by simp)
    · rw [if_neg he] at hn
      rw [List.cons_append, findLargeAux, if_neg he, ih more (k + 1) hn]
      have : k + 1 + rest.length = k + (e :: rest).length := by
        simp
        omega
      rw [this]

theorem findLargeAux_some_spec {h : Nat} :
    ∀ (larges : List LargeEntry) (k i : Nat),
      findLargeAux larges h k = some i →
      k ≤ i ∧ i - k < larges.length ∧ (larges.getD (i - k) emptyLarge).hash = h ∧
        ∀ j < i - k, (larges.getD j emptyLarge).hash ≠ h := by
  intro larges
  induction larges with
  | nil =>
    intro k i hsome
    exact absurd hsome (by simp [findLargeAux])
  | cons e rest ih =>
    intro k i hsome
    rw [findLargeAux] at hsome
    by_cases he : e.hash = h
    · rw [if_pos he] at hsome
      injection hsome with hsome
      subst hsome
      refine ⟨Nat.le_refl k, ?_, ?_, ?_⟩
      · simp
      · simpa using he
      · intro j hj
        omega
    · rw [if_neg he] at hsome
      obtain ⟨hki, hlt, hhash, hfirst⟩ := ih (k + 1) i hsome
      have hik : i - k = (i - (k + 1)) + 1 := by omega
      refine ⟨by omega, by simp; omega, ?_, ?_⟩
      · rw [hik]
        simpa using hhash
      · intro j hj
        rcases j with _ | j2
        · simpa using he
        · have : j2 < i - (k + 1) := by omega
          simpa using hfirst j2 this

theorem findLargeAux_first {h : Nat} :
    ∀ (larges : List LargeEntry) (k i : Nat),
      i < larges.length →
      (larges.getD i emptyLarge).hash = h →
      (∀ e ∈ larges.take i, e.hash ≠ h) →
      findLargeAux larges h k = some (k + i) := by
  intro larges
  induction larges with
  | nil =>
    intro k i hi
    simp at hi
  | cons e rest ih =>
    intro k i hi hhash hbefore
    rcases i with _ | i2
    · rw [findLargeAux, if_pos (by simpa using hhash)]
      rfl
    · have he : e.hash ≠ h := hbefore e (by simp [List.take_succ_cons])
      rw [findLargeAux, if_neg he]
      have := ih (k + 1) i2 (by simpa using hi) (by simpa using hhash)
        (fun x hx => hbefore x (by simp [List.take_succ_cons]; exact Or.inr hx))
      rw [this]
      congr 1
      omega

theorem intern_dispatch_empty {hashFn : List Nat → Nat} {st : PoolState} {str : List Nat}
    (h : str.length = 0) : st.intern hashFn str = (.nullPtr, st) := by
  rw [PoolState.intern, if_pos h]

theorem intern_dispatch_small {hashFn : List Nat → Nat} {st : PoolState} {str : List Nat}
    (h1 : 1 ≤ str.length) (h2 : str.length ≤ 126) :
    st.intern hashFn str = st.intern_small str := by
  rw [PoolState.intern, if_neg (by omega), if_pos h2]

theorem intern_dispatch_large {hashFn : List Nat → Nat} {st : PoolState} {str : List Nat}
    (h : 127 ≤ str.length) :
    st.intern hashFn str = st.intern_large hashFn str := by
  rw [PoolState.intern, if_neg (by omega), if_neg (by omega)]

theorem find_dispatch_empty {hashFn : List Nat → Nat} {st : PoolState} {str : List Nat}
    (h : str.length = 0) : st.find hashFn str = (some .nullPtr, st) := by
  rw [PoolState.find, if_pos h]

theorem find_dispatch_small {hashFn : List Nat → Nat} {st : PoolState} {str : List Nat}
    (h1 : 1 ≤ str.length) (h2 : str.length ≤ 126) :
    st.find hashFn str = st.find_small str := by
  rw [PoolState.find, if_neg (by omega), if_pos h2]

theorem find_dispatch_large {hashFn : List Nat → Nat} {st : PoolState} {str : List Nat}
    (h : 127 ≤ str.length) :
    st.find hashFn str = st.find_large hashFn str := by
  rw [PoolState.find, if_neg (by omega), if_neg (by omega)]

theorem internSmallAux_handle_shape {str : List Nat} :
    ∀ (pages : List Page) (pidx : Nat) (h : PoolStr) (pages2 : List Page),
      internSmallAux pages str pidx = some (h, pages2) →
      ∃ a b, h = PoolStr.smallPtr a b := by
  intro pages
  induction pages with
  | nil =>
    intro pidx h pages2 hs
    exact absurd hs (by simp [internSmallAux])
  | cons q rest ih =>
    intro pidx h pages2 hs
    rw [internSmallAux] at hs
    rcases hq : tryInternFrom q.entries str 0 with _ | ⟨off, ents⟩
    · rw [hq] at hs
      rcases hr : internSmallAux rest str (pidx + 1) with _ | ⟨h2, rest2⟩
      · rw [hr] at hs
        exact absurd hs (by simp)
      · rw [hr] at hs
        simp only [Option.some.injEq, Prod.mk.injEq] at hs
        obtain ⟨hh, _⟩ := hs
        rw [← hh]
        exact ih (pidx + 1) h2 rest2 hr
    · rw [hq] at hs
      simp only [Option.some.injEq, Prod.mk.injEq] at hs
      exact ⟨pidx, off, hs.1.symm⟩

theorem findSmallAux_handle_shape {str : List Nat} :
    ∀ (pages : List Page) (pidx : Nat) (h : PoolStr),
      findSmallAux pages str pidx = some h →
      ∃ a b, h = PoolStr.smallPtr a b := by
  intro pages
  induction pages with
  | nil =>
    intro pidx h hs
    exact absurd hs (by simp [findSmallAux])
  | cons q rest ih =>
    intro pidx h hs
    rw [findSmallAux] at hs
    rcases hq : pageFindFrom q.entries str 0 with _ | off
    · rw [hq] at hs
      exact ih (pidx + 1) h hs
    · rw [hq] at hs
      simp only [Option.some.injEq] at hs
      exact ⟨pidx, off, hs.symm⟩

theorem getD_append_len {l : List Page} {x : Page} :
    (l ++ [x]).getD l.length emptyPage = x := by
  rw [List.getD_append_right l [x] emptyPage l.length (Nat.le_refl _)]
  simp

theorem freshEntries_tryIntern {str : List Nat} (h1 : 1 ≤ str.length)
    (h2 : str.length ≤ 126) :
    tryInternFrom freshEntries str 0 = some (0, pageOf [str]) := by
  have hcap : usedLen ([] : List (List Nat)) ≤ PAGE_CAPACITY := by
    rw [usedLen_nil]
    exact Nat.zero_le _
  have hspec := tryInternFrom_spec h1 [] 0 (pageOf []) (fun c hc => absurd hc (List.not_mem_nil c))
    (encFrom_pageOf hcap)
  rw [pageOf_nil] at hspec
  rw [hspec]
  rw [show slotOffsetAux [] str 0 = none from rfl]
  have hcapv : PAGE_CAPACITY = 1008 := rfl
  rw [if_pos (by rw [usedLen_nil]; omega)]
  rw [show (0 + usedLen ([] : List (List Nat))) = usedLen ([] : List (List Nat)) from by omega]
  rw [show insertAt freshEntries (usedLen ([] : List (List Nat))) str
      = insertAt (pageOf []) (usedLen ([] : List (List Nat))) str from by rw [pageOf_nil]]
  rw [insertAt_pageOf h2 (by rw [usedLen_nil]; omega)]
  rfl

theorem intern_small_spec {P : List Nat → Prop} {str : List Nat} {st : PoolState}
    (hstr1 : 1 ≤ str.length) (hstr2 : str.length ≤ 126) (hP : P str)
    (hpages : ∀ pg ∈ st.pages, pg.Inv P) :
    ∃ j off ents,
      (st.intern_small str).1 = PoolStr.smallPtr j off ∧
      (st.intern_small str).2.pages.getD j emptyPage = Page.mk ents ∧
      ents.getD off 0 = str.length ∧
      slice ents (off+1) ((off+1) + str.length) = str ∧
      (st.intern_small str).2.larges = st.larges ∧
      (st.intern_small str).2.refCount = st.refCount + 1 ∧
      (∀ pg ∈ (st.intern_small str).2.pages, pg.Inv P) ∧
      (((st.intern_small str).2).intern_small str).1 = (st.intern_small str).1 ∧
      findSmallAux (st.intern_small str).2.pages str 0 = some (st.intern_small str).1 := by
  rcases hcase : internSmallAux st.pages str 0 with _ | ⟨h, pages2⟩
  · -- every existing page refused: a fresh page is appended and interning retried there
    have heq : st.intern_small str =
        (PoolStr.smallPtr st.pages.length 0,
          ⟨st.pages ++ [Page.mk (pageOf [str])], st.larges, st.refCount + 1⟩) := by
      rw [PoolState.intern_small, hcase, freshEntries_tryIntern hstr1 hstr2]
    have hq : ∀ pg ∈ st.pages, tryInternFrom pg.entries str 0 = none :=
      internSmallAux_none_elim st.pages 0 hcase
    have hwf1 : WFslots [str] := by
      intro c hc
      rw [List.mem_singleton.mp hc]
      omega
    have hcap1 : usedLen [str] ≤ PAGE_CAPACITY := by
      have hcapv : PAGE_CAPACITY = 1008 := rfl
      rw [usedLen_cons, usedLen_nil]
      omega
    have hoff1 : slotOffsetAux [str] str 0 = some 0 := by
      rw [slotOffsetAux, if_pos rfl]
    have hslotat := slotOffsetAux_slot_at [str] 0 0 (pageOf [str])
      (encFrom_pageOf hcap1) hoff1
    have hnotmem : ∀ pg ∈ st.pages, pageFindFrom pg.entries str 0 = none := by
      intro pg hpg
      obtain ⟨slots, hwf, hcap, hent, _⟩ := hpages pg hpg
      have hench : EncFrom pg.entries 0 slots := by
        rw [hent]
        exact encFrom_pageOf hcap
      have hspec := tryInternFrom_spec hstr1 slots 0 pg.entries hwf hench
      rw [hq pg hpg] at hspec
      have hoffn : slotOffsetAux slots str 0 = none := by
        rcases ho : slotOffsetAux slots str 0 with _ | off0
        · rfl
        · rw [ho] at hspec
          exact absurd hspec.symm (by simp)
      rw [pageFindFrom_spec hstr1 slots 0 pg.entries hwf hench, hoffn]
    rw [heq]
    refine ⟨st.pages.length, 0, pageOf [str], rfl, ?_, hslotat.1, hslotat.2.1, rfl, rfl,
      ?_, ?_, ?_⟩
    · exact getD_append_len
    · intro pg hpg
      rcases List.mem_append.mp hpg with hg | hg
      · exact hpages pg hg
      · rw [List.mem_singleton.mp hg]
        refine ⟨[str], hwf1, hcap1, rfl, ?_⟩
        intro c hc
        rw [List.mem_singleton.mp hc]
        exact hP
    · rw [PoolState.intern_small]
      have happ := internSmallAux_append_none st.pages [Page.mk (pageOf [str])] 0 hcase
      have hone : internSmallAux [Page.mk (pageOf [str])] str (0 + st.pages.length) =
          some (PoolStr.smallPtr (0 + st.pages.length) 0, [Page.mk (pageOf [str])]) := by
        rw [internSmallAux]
        have hspec1 := tryInternFrom_spec hstr1 [str] 0 (pageOf [str]) hwf1
          (encFrom_pageOf hcap1)
        rw [hoff1] at hspec1
        rw [show (Page.mk (pageOf [str])).entries = pageOf [str] from rfl, hspec1]
      rw [show (⟨st.pages ++ [Page.mk (pageOf [str])], st.larges, st.refCount + 1⟩ :
          PoolState).pages = st.pages ++ [Page.mk (pageOf [str])] from rfl]
      rw [happ, hone]
      simp
    · have happf := findSmallAux_append st.pages [Page.mk (pageOf [str])] 0 hnotmem
      rw [show (⟨st.pages ++ [Page.mk (pageOf [str])], st.larges, st.refCount + 1⟩ :
          PoolState).pages = st.pages ++ [Page.mk (pageOf [str])] from rfl]
      rw [happf, findSmallAux]
      have hfind1 := pageFindFrom_spec hstr1 [str] 0 (pageOf [str]) hwf1
        (encFrom_pageOf hcap1)
      rw [hoff1] at hfind1
      rw [show (Page.mk (pageOf [str])).entries = pageOf [str] from rfl, hfind1]
      simp
  · -- some existing page served the intern
    have heq : st.intern_small str = (h, ⟨pages2, st.larges, st.refCount + 1⟩) := by
      rw [PoolState.intern_small, hcase]
    obtain ⟨j, off, ents, hh, hgd, hlen2, hslice2, hinv2, hre, hfi⟩ :=
      internSmallAux_some_spec hstr1 hstr2 hP st.pages 0 h pages2 hpages hcase
    rw [Nat.zero_add] at hh
    rw [heq]
    refine ⟨j, off, ents, hh, hgd, hlen2, hslice2, rfl, rfl, hinv2, ?_, by rw [hfi, hh]⟩
    rw [PoolState.intern_small]
    rw [show (⟨pages2, st.larges, st.refCount + 1⟩ : PoolState).pages = pages2 from rfl]
    rw [hre]

theorem intern_refCount (hashFn : List Nat → Nat) (st : PoolState) (str : List Nat) :
    ((st.intern hashFn str).2).refCount =
      st.refCount + (if (st.intern hashFn str).1 = PoolStr.nullPtr then 0 else 1) := by
  rcases Nat.lt_or_ge str.length 1 with hlen | hlen
  · rw [intern_dispatch_empty (by omega)]
    simp
  rcases Nat.lt_or_ge str.length 127 with hlen2 | hlen2
  · rw [intern_dispatch_small hlen (by omega)]
    rw [PoolState.intern_small]
    rcases hcase : internSmallAux st.pages str 0 with _ | ⟨h, pages2⟩
    · rw [freshEntries_tryIntern hlen (by omega)]
      simp
    · obtain ⟨a, b, hh⟩ := internSmallAux_handle_shape st.pages 0 h pages2 hcase
      subst hh
      simp
  · rw [intern_dispatch_large hlen2]
    rw [PoolState.intern_large]
    rcases hcase : findLargeAux st.larges (hashFn str) 0 with _ | i <;> simp

theorem find_refCount (hashFn : List Nat → Nat) (st : PoolState) (str : List Nat) :
    ((st.find hashFn str).2).refCount =
      st.refCount +
        (match (st.find hashFn str).1 with
         | some h => if h = PoolStr.nullPtr then 0 else 1
         | none => 0) := by
  rcases Nat.lt_or_ge str.length 1 with hlen | hlen
  · rw [find_dispatch_empty (by omega)]
    simp
  rcases Nat.lt_or_ge str.length 127 with hlen2 | hlen2
  · rw [find_dispatch_small hlen (by omega)]
    rw [PoolState.find_small]
    rcases hcase : findSmallAux st.pages str 0 with _ | h
    · simp
    · obtain ⟨a, b, hh⟩ := findSmallAux_handle_shape st.pages 0 h hcase
      subst hh
      simp
  · rw [find_dispatch_large hlen2]
    rw [PoolState.find_large]
    rcases hcase : findLargeAux st.larges (hashFn str) 0 with _ | i <;> simp

theorem find_frame (hashFn : List Nat → Nat) (st : PoolState) (str : List Nat) :
    ((st.find hashFn str).2).pages = st.pages ∧
      ((st.find hashFn str).2).larges = st.larges ∧
      ((st.find hashFn str).1 = none → (st.find hashFn str).2 = st) := by
  rcases Nat.lt_or_ge str.length 1 with hlen | hlen
  · rw [find_dispatch_empty (by omega)]
    simp
  rcases Nat.lt_or_ge str.length 127 with hlen2 | hlen2
  · rw [find_dispatch_small hlen (by omega)]
    rw [PoolState.find_small]
    rcases hcase : findSmallAux st.pages str 0 with _ | h <;> simp
  · rw [find_dispatch_large hlen2]
    rw [PoolState.find_large]
    rcases hcase : findLargeAux st.larges (hashFn str) 0 with _ | i <;> simp

theorem inv_of_frame {hashFn : List Nat → Nat} {P : List Nat → Prop} {st st2 : PoolState}
    (hp : st2.pages = st.pages) (hl : st2.larges = st.larges)
    (hinv : st.Inv hashFn P) : st2.Inv hashFn P := by
  obtain ⟨h1, h2⟩ := hinv
  exact ⟨by rw [hp]; exact h1, by rw [hl]; exact h2⟩

theorem intern_inv_preserve {hashFn : List Nat → Nat} {P : List Nat → Prop}
    {st : PoolState} {str : List Nat} (hP : P str) (hinv : st.Inv hashFn P) :
    ((st.intern hashFn str).2).Inv hashFn P := by
  rcases Nat.lt_or_ge str.length 1 with hlen | hlen
  · rw [intern_dispatch_empty (by omega)]
    exact hinv
  rcases Nat.lt_or_ge str.length 127 with hlen2 | hlen2
  · rw [intern_dispatch_small hlen (by omega)]
    obtain ⟨j, off, ents, _, _, _, _, hlarges, _, hpres, _, _⟩ :=
      intern_small_spec hlen (by omega) hP hinv.1
    exact ⟨hpres, by rw [hlarges]; exact hinv.2⟩
  · rw [intern_dispatch_large hlen2]
    rw [PoolState.intern_large]
    rcases hcase : findLargeAux st.larges (hashFn str) 0 with _ | i
    · refine ⟨hinv.1, ?_⟩
      intro e he
      rcases List.mem_append.mp he with hg | hg
      · exact hinv.2 e hg
      · rw [List.mem_singleton.mp hg]
        refine ⟨rfl, rfl, ?_, hP⟩
        show 127 ≤ str.length
        omega
    · exact hinv

theorem getD_concat {α : Type} (l : List α) (x d : α) : (l ++ [x]).getD l.length d = x := by
  rw [List.getD_append_right l [x] d l.length (Nat.le_refl _)]
  simp

theorem getD_mem_of_lt {l : List LargeEntry} {i : Nat} (h : i < l.length) :
    l.getD i emptyLarge ∈ l := by
  rw [List.getD_eq_getElem l emptyLarge h]
  exact List.getElem_mem h

theorem deref_small {st : PoolState} {j off : Nat} {ents str : List Nat}
    (hgd : st.pages.getD j emptyPage = Page.mk ents)
    (hlen : ents.getD off 0 = str.length)
    (hslice : slice ents (off+1) ((off+1) + str.length) = str)
    (hpos : 1 ≤ str.length) :
    st.deref (.smallPtr j off) = str := by
  rw [PoolState.deref, hgd]
  rw [show (Page.mk ents).entries = ents from rfl]
  rw [hlen, if_neg (by omega)]
  exact hslice

theorem deref_large {st : PoolState} {i : Nat} :
    st.deref (.largePtr i) =
      (st.larges.getD i emptyLarge).data.take (st.larges.getD i emptyLarge).len := by
  rw [PoolState.deref]

theorem freshPool_inv (hashFn : List Nat → Nat) (P : List Nat → Prop) :
    freshPool.Inv hashFn P := by
  constructor
  · intro pg hpg
    exact absurd hpg (List.not_mem_nil pg)
  · intro e he
    exact absurd he (List.not_mem_nil e)

theorem intern_fresh_small {hashFn : List Nat → Nat} {s : List Nat}
    (h1 : 1 ≤ s.length) (h2 : s.length ≤ 126) :
    freshPool.intern hashFn s = (.smallPtr 0 0, ⟨[Page.mk (pageOf [s])], [], 2⟩) := by
  rw [intern_dispatch_small h1 h2, PoolState.intern_small]
  rw [show internSmallAux freshPool.pages s 0 = none from rfl]
  rw [freshEntries_tryIntern h1 h2]
  rfl

theorem intern_fresh_large {hashFn : List Nat → Nat} {s : List Nat}
    (h : 127 ≤ s.length) :
    freshPool.intern hashFn s = (.largePtr 0, ⟨[], [⟨s.length, hashFn s, s⟩], 2⟩) := by
  rw [intern_dispatch_large h, PoolState.intern_large]
  rw [show findLargeAux freshPool.larges (hashFn s) 0 = none from rfl]
  rfl

theorem intern_second_small {hashFn : List Nat → Nat} {s t : List Nat}
    (hs1 : 1 ≤ s.length) (hs2 : s.length ≤ 126)
    (ht1 : 1 ≤ t.length) (ht2 : t.length ≤ 126) (hst : s ≠ t)
    (L : List LargeEntry) (rc : Nat) :
    (⟨[Page.mk (pageOf [s])], L, rc⟩ : PoolState).intern hashFn t =
      (.smallPtr 0 (1 + s.length), ⟨[Page.mk (pageOf [s, t])], L, rc + 1⟩) := by
  have hwfs : WFslots [s] := by
    intro c hc
    rw [List.mem_singleton.mp hc]
    omega
  have hcaps : usedLen [s] ≤ PAGE_CAPACITY := by
    have hcapv : PAGE_CAPACITY = 1008 := rfl
    rw [usedLen_cons, usedLen_nil]
    omega
  have hcapv : PAGE_CAPACITY = 1008 := rfl
  have husl : usedLen [s] = 1 + s.length := by
    rw [usedLen_cons, usedLen_nil]
    omega
  have hoffn : slotOffsetAux [s] t 0 = none := by
    rw [slotOffsetAux, if_neg hst]
    rfl
  have htry : tryInternFrom (pageOf [s]) t 0 = some (1 + s.length, pageOf [s, t]) := by
    have hspec := tryInternFrom_spec ht1 [s] 0 (pageOf [s]) hwfs (encFrom_pageOf hcaps)
    rw [hoffn] at hspec
    rw [hspec]
    rw [if_pos (by rw [usedLen_cons, usedLen_nil]; omega)]
    rw [show (0 + usedLen [s]) = usedLen [s] from by omega]
    rw [insertAt_pageOf ht2 (by rw [usedLen_cons, usedLen_nil]; omega)]
    rw [husl]
    rfl
  rw [intern_dispatch_small ht1 ht2, PoolState.intern_small]
  rw [show (⟨[Page.mk (pageOf [s])], L, rc⟩ : PoolState).pages = [Page.mk (pageOf [s])]
    from rfl]
  rw [internSmallAux]
  rw [show (Page.mk (pageOf [s])).entries = pageOf [s] from rfl, htry]

theorem intern_rerun {hashFn : List Nat → Nat} {st : PoolState} {str : List Nat}
    (hwf : st.WF hashFn) :
    (((st.intern hashFn str).2).intern hashFn str).1 = (st.intern hashFn str).1 := by
  rcases Nat.lt_or_ge str.length 1 with hlen | hlen
  · rw [intern_dispatch_empty (show str.length = 0 by omega)]
    rw [intern_dispatch_empty (show str.length = 0 by omega)]
  rcases Nat.lt_or_ge str.length 127 with hlen2 | hlen2
  · rw [intern_dispatch_small hlen (by omega), intern_dispatch_small hlen (by omega)]
    obtain ⟨j, off, ents, _, _, _, _, _, _, _, hre, _⟩ :=
      intern_small_spec hlen (by omega) trivial hwf.1
    exact hre
  · rw [intern_dispatch_large hlen2, intern_dispatch_large hlen2]
    rcases hcase : findLargeAux st.larges (hashFn str) 0 with _ | i
    · -- appended at the tail: the rerun finds the appended entry
      have heq : st.intern_large hashFn str =
          (.largePtr st.larges.length,
            ⟨st.pages, st.larges ++ [⟨str.length, hashFn str, str⟩],
              st.refCount + 1⟩) := by
        rw [PoolState.intern_large, hcase]
      rw [heq, PoolState.intern_large]
      rw [show (⟨st.pages, st.larges ++ [⟨str.length, hashFn str, str⟩],
          st.refCount + 1⟩ : PoolState).larges =
        st.larges ++ [⟨str.length, hashFn str, str⟩] from rfl]
      rw [findLargeAux_append_none st.larges [⟨str.length, hashFn str, str⟩] 0 hcase]
      rw [findLargeAux, if_pos rfl]
      simp
    · -- found: the state is unchanged apart from the reference count
      have heq : st.intern_large hashFn str =
          (.largePtr i, ⟨st.pages, st.larges, st.refCount + 1⟩) := by
        rw [PoolState.intern_large, hcase]
      rw [heq, PoolState.intern_large]
      rw [show (⟨st.pages, st.larges, st.refCount + 1⟩ : PoolState).larges = st.larges
        from rfl]
      rw [hcase]

theorem internAll_inv {hashFn : List Nat → Nat} {M : List (List Nat)} :
    ∀ (L : List (List Nat)) (st : PoolState),
      st.Inv hashFn (· ∈ M) → (∀ s ∈ L, s ∈ M) →
      (internAll hashFn st L).Inv hashFn (· ∈ M) := by
  intro L
  induction L with
  | nil =>
    intro st hinv _
    exact hinv
  | cons s rest ih =>
    intro st hinv hmem
    rw [internAll]
    exact ih (st.intern hashFn s).2
      (intern_inv_preserve (hmem s (List.mem_cons_self s rest)) hinv)
      (fun x hx => hmem x (List.mem_cons_of_mem s hx))

theorem slotStarts_bound :
    ∀ (slots : List (List Nat)) (i : Nat), ∀ p ∈ slotStarts slots i,
      p.1 + 1 + p.2 ≤ i + usedLen slots := by
  intro slots
  induction slots with
  | nil =>
    intro i p hp
    exact absurd hp (List.not_mem_nil p)
  | cons c rest ih =>
    intro i p hp
    rw [slotStarts] at hp
    rw [usedLen_cons]
    rcases List.mem_cons.mp hp with hg | hg
    · rw [hg]
      omega
    · have := ih (i + 1 + c.length) p hg
      omega

theorem slotStarts_getD :
    ∀ (slots : List (List Nat)) (i : Nat) (entries : List Nat),
      EncFrom entries i slots →
      ∀ p ∈ slotStarts slots i, entries.getD p.1 0 = p.2 := by
  intro slots
  induction slots with
  | nil =>
    intro i entries _ p hp
    exact absurd hp (List.not_mem_nil p)
  | cons c rest ih =>
    intro i entries henc p hp
    obtain ⟨hgd, _, henc2⟩ := encFrom_cons henc
    rw [slotStarts] at hp
    rcases List.mem_cons.mp hp with hg | hg
    · rw [hg]
      exact hgd
    · exact ih (i + 1 + c.length) entries henc2 p hg

/-- C6: on every pool state, `find("")` yields `Some(PoolStr::empty())` and
`intern("")` yields the null-pointer sentinel, both leaving the state (and in
particular the reference count and both tier lists) untouched; cloning and
dropping the null handle also leave the state untouched and never trigger
reclamation; the null handle dereferences to the empty string. -/
theorem claim_C6_empty_sentinel (hashFn : List Nat → Nat) (st : PoolState) :
    st.find hashFn [] = (some .nullPtr, st) ∧
      st.intern hashFn [] = (.nullPtr, st) ∧
      st.cloneStr .nullPtr = (.nullPtr, st) ∧
      st.dropStr .nullPtr = (st, false) ∧
      st.deref .nullPtr = [] :=
  ⟨find_dispatch_empty rfl, intern_dispatch_empty rfl, rfl, rfl, rfl⟩

/-- C9: interning terminates with a proper handle.  All walks in the model are
structurally bounded (each page walk strictly advances towards
`PAGE_CAPACITY`, the page-list and large-list walks consume finite lists); the
retry loop of `intern_1_127` / `intern_small` completes because after
appending a freshly zero-filled page, any string of the small-tier dispatch
range `1..=126` is interned at offset 0 of that page — in particular the
unreachable fall-through arm of the model is never taken and `intern` always
returns a non-null handle for a non-empty input, on every pool state. -/
theorem claim_C9_termination (hashFn : List Nat → Nat) (st : PoolState) (str : List Nat)
    (h : 1 ≤ str.length) :
    (st.intern hashFn str).1 ≠ PoolStr.nullPtr ∧
      (str.length ≤ 126 → tryInternFrom freshEntries str 0 = some (0, pageOf [str])) := by
  constructor
  · rcases Nat.lt_or_ge str.length 127 with h2 | h2
    · rw [intern_dispatch_small h (by omega), PoolState.intern_small]
      rcases hcase : internSmallAux st.pages str 0 with _ | p
      · rw [freshEntries_tryIntern h (by omega)]
        simp
      · obtain ⟨h1, pages2⟩ := p
        obtain ⟨a, b, hh⟩ := internSmallAux_handle_shape st.pages 0 h1 pages2 hcase
        subst hh
        simp
    · rw [intern_dispatch_large h2, PoolState.intern_large]
      rcases hcase : findLargeAux st.larges (hashFn str) 0 with _ | i <;> simp
  · intro h2
    exact freshEntries_tryIntern h h2

theorem claim_C9_witness :
    1 ≤ ([7] : List Nat).length ∧
      ((freshPool.intern (fun _ => 0) [7]).1 ≠ PoolStr.nullPtr ∧
        (([7] : List Nat).length ≤ 126 →
          tryInternFrom freshEntries [7] 0 = some (0, pageOf [[7]]))) :=
  ⟨by decide, claim_C9_termination (fun _ => 0) freshPool [7] (by decide)⟩

/-- C4: interning the same string twice in sequence on one (wellformed) pool
returns the same handle — literally the same pointer, which covers both the
claimed handle equality and the claimed pointer equality of the small tier —
and the two handles compare equal under the `PartialEq` fall-back rule. -/
theorem claim_C4_sequential_idempotence (hashFn : List Nat → Nat) (st : PoolState)
    (str : List Nat) (hwf : st.WF hashFn) :
    (((st.intern hashFn str).2).intern hashFn str).1 = (st.intern hashFn str).1 ∧
      poolStrEq (((st.intern hashFn str).2).intern hashFn str).2
        (st.intern hashFn str).1
        (((st.intern hashFn str).2).intern hashFn str).1 = true := by
  have h := @intern_rerun hashFn st str hwf
  refine ⟨h, ?_⟩
  rw [poolStrEq, h]
  simp

theorem claim_C4_witness :
    (((freshPool.intern (fun _ => 0) [3]).2).intern (fun _ => 0) [3]).1 =
        (freshPool.intern (fun _ => 0) [3]).1 ∧
      poolStrEq (((freshPool.intern (fun _ => 0) [3]).2).intern (fun _ => 0) [3]).2
        (freshPool.intern (fun _ => 0) [3]).1
        (((freshPool.intern (fun _ => 0) [3]).2).intern (fun _ => 0) [3]).1 = true :=
  claim_C4_sequential_idempotence (fun _ => 0) freshPool [3]
    (freshPool_inv (fun _ => 0) (fun _ => True))

/-- C10: `intern` and `find` preserve the pool invariant, under which every
page is the contiguous encoding of its published slots followed by the zero
terminator region; consequently every READY slot — length byte at offset
`p.1` with value `p.2 ∈ 1..=126` — satisfies `p.1 + 1 + p.2 ≤ PAGE_CAPACITY`,
so no slot crosses the page payload boundary.  The reservation path
guarantees this because it checks `i + 1 + len ≤ PAGE_CAPACITY` before the
claiming compare-exchange. -/
theorem claim_C10_slot_containment (hashFn : List Nat → Nat) (st : PoolState)
    (str : List Nat) (hwf : st.WF hashFn) :
    ((st.intern hashFn str).2).WF hashFn ∧
      ((st.find hashFn str).2).WF hashFn ∧
      (∀ pg ∈ ((st.intern hashFn str).2).pages, ∀ slots,
        pg.entries = pageOf slots → usedLen slots ≤ PAGE_CAPACITY →
        ∀ p ∈ slotStarts slots 0,
          p.1 + 1 + p.2 ≤ PAGE_CAPACITY ∧ pg.entries.getD p.1 0 = p.2) := by
  obtain ⟨hfp, hfl, _⟩ := find_frame hashFn st str
  refine ⟨intern_inv_preserve trivial hwf, inv_of_frame hfp hfl hwf, ?_⟩
  intro pg _ slots hent hcap p hp
  have hb := slotStarts_bound slots 0 p hp
  have hg := slotStarts_getD slots 0 pg.entries (by rw [hent]; exact encFrom_pageOf hcap) p hp
  exact ⟨by omega, hg⟩

theorem claim_C10_witness :
    ((freshPool.intern (fun _ => 0) [9]).2).WF (fun _ => 0) ∧
      ((freshPool.find (fun _ => 0) [9]).2).WF (fun _ => 0) ∧
      (∀ pg ∈ ((freshPool.intern (fun _ => 0) [9]).2).pages, ∀ slots,
        pg.entries = pageOf slots → usedLen slots ≤ PAGE_CAPACITY →
        ∀ p ∈ slotStarts slots 0,
          p.1 + 1 + p.2 ≤ PAGE_CAPACITY ∧ pg.entries.getD p.1 0 = p.2) :=
  claim_C10_slot_containment (fun _ => 0) freshPool [9]
    (freshPool_inv (fun _ => 0) (fun _ => True))

theorem rcStep_inv {hashFn : List Nat → Nat} {cfg cfg2 : RcConfig} {op : PoolOp}
    (hinv : cfg.st.refCount = cfg.pools + cfg.handles)
    (hstep : rcStep hashFn cfg op = some cfg2) :
    cfg2.st.refCount = cfg2.pools + cfg2.handles := by
  cases op with
  | internOp s =>
    rw [rcStep] at hstep
    by_cases hp : cfg.pools = 0
    · rw [if_pos hp] at hstep
      exact absurd hstep (by simp)
    · rw [if_neg hp] at hstep
      injection hstep with hstep
      subst hstep
      have hd := intern_refCount hashFn cfg.st s
      show ((cfg.st.intern hashFn s).2).refCount =
        cfg.pools + (cfg.handles + (if (cfg.st.intern hashFn s).1 = .nullPtr then 0 else 1))
      rw [hd, hinv]
      omega
  | findOp s =>
    rw [rcStep] at hstep
    by_cases hp : cfg.pools = 0
    · rw [if_pos hp] at hstep
      exact absurd hstep (by simp)
    · rw [if_neg hp] at hstep
      injection hstep with hstep
      subst hstep
      have hd := find_refCount hashFn cfg.st s
      show ((cfg.st.find hashFn s).2).refCount =
        cfg.pools + (cfg.handles +
          (match (cfg.st.find hashFn s).1 with
           | some h => if h = PoolStr.nullPtr then 0 else 1
           | none => 0))
      rcases hres : (cfg.st.find hashFn s).1 with _ | h
      · rw [hres] at hd
        rw [hd, hinv]
        rfl
      · rw [hres] at hd
        rw [hd, hinv]
        omega
  | clonePoolOp =>
    rw [rcStep] at hstep
    by_cases hp : cfg.pools = 0
    · rw [if_pos hp] at hstep
      exact absurd hstep (by simp)
    · rw [if_neg hp] at hstep
      injection hstep with hstep
      subst hstep
      show cfg.st.refCount + 1 = cfg.pools + 1 + cfg.handles
      omega
  | dropPoolOp =>
    rw [rcStep] at hstep
    by_cases hp : cfg.pools = 0
    · rw [if_pos hp] at hstep
      exact absurd hstep (by simp)
    · rw [if_neg hp] at hstep
      injection hstep with hstep
      subst hstep
      show cfg.st.refCount - 1 = cfg.pools - 1 + cfg.handles
      omega
  | cloneLive =>
    rw [rcStep] at hstep
    by_cases hp : cfg.handles = 0
    · rw [if_pos hp] at hstep
      exact absurd hstep (by simp)
    · rw [if_neg hp] at hstep
      injection hstep with hstep
      subst hstep
      show cfg.st.refCount + 1 = cfg.pools + (cfg.handles + 1)
      omega
  | dropLive =>
    rw [rcStep] at hstep
    by_cases hp : cfg.handles = 0
    · rw [if_pos hp] at hstep
      exact absurd hstep (by simp)
    · rw [if_neg hp] at hstep
      injection hstep with hstep
      subst hstep
      show cfg.st.refCount - 1 = cfg.pools + (cfg.handles - 1)
      omega
  | cloneEmpty =>
    rw [rcStep] at hstep
    injection hstep with hstep
    subst hstep
    exact hinv
  | dropEmpty =>
    rw [rcStep] at hstep
    injection hstep with hstep
    subst hstep
    exact hinv

theorem dropStr_nonnull {st : PoolState} {h : PoolStr} (hne : h ≠ PoolStr.nullPtr) :
    st.dropStr h = ({ st with refCount := st.refCount - 1 }, st.refCount == 1) := by
  cases h with
  | nullPtr => exact absurd rfl hne
  | smallPtr a b => rfl
  | largePtr a => rfl

theorem rcRunFrom_inv {hashFn : List Nat → Nat} :
    ∀ (ops : List PoolOp) (cfg cfg2 : RcConfig),
      cfg.st.refCount = cfg.pools + cfg.handles →
      rcRunFrom hashFn cfg ops = some cfg2 →
      cfg2.st.refCount = cfg2.pools + cfg2.handles := by
  intro ops
  induction ops with
  | nil =>
    intro cfg cfg2 hinv hrun
    rw [rcRunFrom] at hrun
    injection hrun with hrun
    subst hrun
    exact hinv
  | cons op rest ih =>
    intro cfg cfg2 hinv hrun
    rw [rcRunFrom] at hrun
    rcases hstep : rcStep hashFn cfg op with _ | cfgm
    · rw [hstep] at hrun
      exact absurd hrun (by simp)
    · rw [hstep] at hrun
      exact ih cfgm cfg2 (rcStep_inv hinv hstep) hrun

/-- C7: along every legal operation sequence from `Pool::new()`, the inner
pool's reference count equals the number of live `Pool` clones plus the
number of live non-null handles; every `intern`, and every `find` returning a
non-empty handle, bumps the count by exactly one before returning (the null
sentinel bumps nothing); and dropping a pool clone or a live handle triggers
reclamation (the 1-to-0 decrement) exactly when it is the last live
reference. -/
theorem claim_C7_refcount_invariant (hashFn : List Nat → Nat) (ops : List PoolOp)
    (cfg : RcConfig) (hrun : rcRun hashFn ops = some cfg) :
    cfg.st.refCount = cfg.pools + cfg.handles ∧
      ((cfg.st.dropPool).2 = true ↔ cfg.pools + cfg.handles = 1) ∧
      (∀ h : PoolStr, h ≠ PoolStr.nullPtr →
        ((cfg.st.dropStr h).2 = true ↔ cfg.pools + cfg.handles = 1)) ∧
      (∀ (st : PoolState) (str : List Nat),
        ((st.intern hashFn str).2).refCount =
          st.refCount + (if (st.intern hashFn str).1 = PoolStr.nullPtr then 0 else 1)) ∧
      (∀ (st : PoolState) (str : List Nat),
        ((st.find hashFn str).2).refCount =
          st.refCount +
            (match (st.find hashFn str).1 with
             | some h => if h = PoolStr.nullPtr then 0 else 1
             | none => 0)) := by
  have hinv : cfg.st.refCount = cfg.pools + cfg.handles :=
    rcRunFrom_inv ops rcInit cfg rfl hrun
  refine ⟨hinv, ?_, ?_, intern_refCount hashFn, find_refCount hashFn⟩
  · rw [PoolState.dropPool]
    simp only [Nat.beq_eq_true_eq]
    omega
  · intro h hne
    rw [dropStr_nonnull hne]
    simp only [Nat.beq_eq_true_eq]
    omega

theorem claim_C7_witness :
    rcRun (fun _ => 0)
        [PoolOp.internOp [1, 2], PoolOp.clonePoolOp, PoolOp.findOp [1, 2],
          PoolOp.dropLive, PoolOp.dropLive, PoolOp.dropPoolOp] =
        some ⟨⟨[Page.mk (pageOf [[1, 2]])], [], 1⟩, 1, 0⟩ ∧
      (⟨⟨[Page.mk (pageOf [[1, 2]])], [], 1⟩, 1, 0⟩ : RcConfig).st.refCount =
          (⟨⟨[Page.mk (pageOf [[1, 2]])], [], 1⟩, 1, 0⟩ : RcConfig).pools +
            (⟨⟨[Page.mk (pageOf [[1, 2]])], [], 1⟩, 1, 0⟩ : RcConfig).handles :=
  ⟨by decide,
    (claim_C7_refcount_invariant (fun _ => 0)
      [PoolOp.internOp [1, 2], PoolOp.clonePoolOp, PoolOp.findOp [1, 2],
        PoolOp.dropLive, PoolOp.dropLive, PoolOp.dropPoolOp]
      ⟨⟨[Page.mk (pageOf [[1, 2]])], [], 1⟩, 1, 0⟩ (by decide)).1⟩

theorem hash_collision_exists (hashFn : List Nat → Nat) (hb : ∀ l, hashFn l < 2 ^ 64) :
    ∃ s t : List Nat, s ≠ t ∧ 127 ≤ s.length ∧ 127 ≤ t.length ∧ hashFn s = hashFn t := by
  obtain ⟨n, m, hnm, heq⟩ := Finite.exists_ne_map_eq_of_infinite
    (fun n : Nat => (⟨hashFn (List.replicate (127 + n) 0), hb _⟩ : Fin (2 ^ 64)))
  refine ⟨List.replicate (127 + n) 0, List.replicate (127 + m) 0, ?_, by simp, by simp, ?_⟩
  · intro hq
    apply hnm
    have hl := congrArg List.length hq
    simp only [List.length_replicate] at hl
    omega
  · exact congrArg Fin.val heq

theorem large_collision_deref (hashFn : List Nat → Nat) {s t : List Nat}
    (hst : s ≠ t) (hs : 127 ≤ s.length) (ht : 127 ≤ t.length)
    (hh : hashFn s = hashFn t) :
    ((((freshPool.intern hashFn t).2).intern hashFn s).2).deref
      (((freshPool.intern hashFn t).2).intern hashFn s).1 ≠ s := by
  rw [intern_fresh_large ht]
  show ((((⟨[], [⟨t.length, hashFn t, t⟩], 2⟩ : PoolState).intern hashFn s).2).deref
    (((⟨[], [⟨t.length, hashFn t, t⟩], 2⟩ : PoolState).intern hashFn s).1)) ≠ s
  have heq : (⟨[], [⟨t.length, hashFn t, t⟩], 2⟩ : PoolState).intern hashFn s =
      (.largePtr 0, ⟨[], [⟨t.length, hashFn t, t⟩], 3⟩) := by
    rw [intern_dispatch_large hs, PoolState.intern_large]
    rw [show findLargeAux (⟨[], [⟨t.length, hashFn t, t⟩], 2⟩ : PoolState).larges
        (hashFn s) 0 = some 0 from by
      rw [show (⟨[], [⟨t.length, hashFn t, t⟩], 2⟩ : PoolState).larges =
        [⟨t.length, hashFn t, t⟩] from rfl]
      rw [findLargeAux, if_pos hh.symm]]
  rw [heq]
  show (⟨[], [⟨t.length, hashFn t, t⟩], 3⟩ : PoolState).deref (.largePtr 0) ≠ s
  rw [deref_large]
  show t.take t.length ≠ s
  rw [List.take_length]
  intro hq
  exact hst hq.symm

/-- C1, counterexample: content fidelity `deref(intern(s)) = s` fails on the
code as stated.  The large tier re-uses any stored entry whose 64-bit hash
equals the query hash without comparing bytes, so after interning a
hash-colliding string `t`, `intern(s)` returns `t`'s entry and dereferences
to `t ≠ s`.  The first conjunct refutes the claim quantified over every
possible build hash; the second shows the failure is intrinsic: EVERY
function into 64-bit hashes (hence the seeded `ahash` of any build) has such
a colliding pair among strings of length ≥ 127, by pigeonhole. -/
theorem claim_C1_content_fidelity_cex :
    (¬ ∀ (hashFn : List Nat → Nat), (∀ l, hashFn l < 2 ^ 64) →
        ∀ (prior : List (List Nat)) (s : List Nat),
          (((internAll hashFn freshPool prior).intern hashFn s).2).deref
            ((internAll hashFn freshPool prior).intern hashFn s).1 = s) ∧
      (∀ hashFn : List Nat → Nat, (∀ l, hashFn l < 2 ^ 64) →
        ∃ s t : List Nat, s ≠ t ∧
          ((((freshPool.intern hashFn t).2).intern hashFn s).2).deref
            (((freshPool.intern hashFn t).2).intern hashFn s).1 ≠ s) := by
  have hsecond : ∀ hashFn : List Nat → Nat, (∀ l, hashFn l < 2 ^ 64) →
      ∃ s t : List Nat, s ≠ t ∧
        ((((freshPool.intern hashFn t).2).intern hashFn s).2).deref
          (((freshPool.intern hashFn t).2).intern hashFn s).1 ≠ s := by
    intro hashFn hb
    obtain ⟨s, t, hst, hs, ht, hh⟩ := hash_collision_exists hashFn hb
    exact ⟨s, t, hst, large_collision_deref hashFn hst hs ht hh⟩
  refine ⟨?_, hsecond⟩
  intro hcl
  obtain ⟨s, t, hst, hne⟩ := hsecond (fun _ => 0) (fun l => pow_pos (by decide) 64)
  exact hne (hcl (fun _ => 0) (fun l => pow_pos (by decide) 64) [t] s)

/-- C1, amended: content fidelity holds whenever no already-stored large
entry carries the hash of `s` with different content — in particular
unconditionally for the empty string and the whole small tier (lengths
1..=126, matched byte-for-byte), and on any pool whose large entries avoid a
64-bit hash collision with `s`.  On wellformed pools, `deref(intern(s))`
reads back exactly the interned bytes: the small tier from the slot's length
byte, the large tier from the header's length field. -/
theorem claim_C1_content_fidelity_amended (hashFn : List Nat → Nat) (st : PoolState)
    (str : List Nat) (hwf : st.WF hashFn)
    (hnc : ∀ e ∈ st.larges, e.hash = hashFn str → e.data = str) :
    ((st.intern hashFn str).2).deref (st.intern hashFn str).1 = str := by
  rcases Nat.lt_or_ge str.length 1 with hlen | hlen
  · rw [intern_dispatch_empty (by omega)]
    have hstr : str = [] := List.length_eq_zero.mp (by omega)
    rw [hstr]
    rfl
  rcases Nat.lt_or_ge str.length 127 with hlen2 | hlen2
  · rw [intern_dispatch_small hlen (by omega)]
    obtain ⟨j, off, ents, hh, hgd, hlen3, hslice, _, _, _, _, _⟩ :=
      intern_small_spec hlen (by omega) trivial hwf.1
    rw [hh]
    exact deref_small hgd hlen3 hslice hlen
  · rw [intern_dispatch_large hlen2]
    rcases hcase : findLargeAux st.larges (hashFn str) 0 with _ | i
    · have heq : st.intern_large hashFn str =
          (.largePtr st.larges.length,
            ⟨st.pages, st.larges ++ [⟨str.length, hashFn str, str⟩],
              st.refCount + 1⟩) := by
        rw [PoolState.intern_large, hcase]
      rw [heq]
      show (⟨st.pages, st.larges ++ [⟨str.length, hashFn str, str⟩],
        st.refCount + 1⟩ : PoolState).deref (.largePtr st.larges.length) = str
      rw [deref_large]
      rw [show (⟨st.pages, st.larges ++ [⟨str.length, hashFn str, str⟩],
          st.refCount + 1⟩ : PoolState).larges =
        st.larges ++ [⟨str.length, hashFn str, str⟩] from rfl]
      rw [getD_concat]
      exact List.take_length str
    · have heq : st.intern_large hashFn str =
          (.largePtr i, ⟨st.pages, st.larges, st.refCount + 1⟩) := by
        rw [PoolState.intern_large, hcase]
      rw [heq]
      show (⟨st.pages, st.larges, st.refCount + 1⟩ : PoolState).deref (.largePtr i) = str
      rw [deref_large]
      rw [show (⟨st.pages, st.larges, st.refCount + 1⟩ : PoolState).larges = st.larges
        from rfl]
      obtain ⟨_, hlt, hhash, _⟩ := findLargeAux_some_spec st.larges 0 i hcase
      rw [Nat.sub_zero] at hlt hhash
      have hmem := getD_mem_of_lt hlt
      have hdata : (st.larges.getD i emptyLarge).data = str := hnc _ hmem hhash
      have hlen4 : (st.larges.getD i emptyLarge).len =
          (st.larges.getD i emptyLarge).data.length := (hwf.2 _ hmem).1
      rw [hlen4, hdata, List.take_length]

theorem claim_C1_amended_witness :
    ((freshPool.intern (fun _ => 0) [5]).2).deref (freshPool.intern (fun _ => 0) [5]).1 =
      [5] :=
  claim_C1_content_fidelity_amended (fun _ => 0) freshPool [5]
    (freshPool_inv (fun _ => 0) (fun _ => True))
    (fun e he => absurd he (List.not_mem_nil e))

theorem deref_pageOf_slot {st : PoolState} {p off : Nat} {slots : List (List Nat)}
    {x : List Nat}
    (hgd : st.pages.getD p emptyPage = Page.mk (pageOf slots))
    (hcap : usedLen slots ≤ PAGE_CAPACITY)
    (hoff : slotOffsetAux slots x 0 = some off)
    (hx : 1 ≤ x.length) :
    st.deref (.smallPtr p off) = x := by
  have hslotat := slotOffsetAux_slot_at slots 0 off (pageOf slots) (encFrom_pageOf hcap) hoff
  exact deref_small hgd hslotat.1 hslotat.2.1 hx

theorem usedLen_single {x : List Nat} : usedLen [x] = 1 + x.length := by
  rw [usedLen_cons, usedLen_nil]
  omega

theorem usedLen_single_cap {x : List Nat} (h : x.length ≤ 126) :
    usedLen [x] ≤ PAGE_CAPACITY := by
  have hcapv : PAGE_CAPACITY = 1008 := rfl
  rw [usedLen_single]
  omega

theorem usedLen_pair_cap {x y : List Nat} (hx : x.length ≤ 126) (hy : y.length ≤ 126) :
    usedLen [x, y] ≤ PAGE_CAPACITY := by
  have hcapv : PAGE_CAPACITY = 1008 := rfl
  rw [usedLen_cons, usedLen_cons, usedLen_nil]
  omega

theorem intern_small_on_pageless {hashFn : List Nat → Nat} {t : List Nat}
    {L : List LargeEntry} {rc : Nat} (h1 : 1 ≤ t.length) (h2 : t.length ≤ 126) :
    (⟨[], L, rc⟩ : PoolState).intern hashFn t =
      (.smallPtr 0 0, ⟨[Page.mk (pageOf [t])], L, rc + 1⟩) := by
  rw [intern_dispatch_small h1 h2, PoolState.intern_small]
  rw [show internSmallAux (⟨[], L, rc⟩ : PoolState).pages t 0 = none from rfl]
  rw [freshEntries_tryIntern h1 h2]
  rfl

theorem intern_large_append {hashFn : List Nat → Nat} {t : List Nat}
    {pages : List Page} {L : List LargeEntry} {rc : Nat}
    (h : 127 ≤ t.length) (hnm : ∀ e ∈ L, e.hash ≠ hashFn t) :
    (⟨pages, L, rc⟩ : PoolState).intern hashFn t =
      (.largePtr L.length, ⟨pages, L ++ [⟨t.length, hashFn t, t⟩], rc + 1⟩) := by
  rw [intern_dispatch_large h, PoolState.intern_large]
  rw [show (⟨pages, L, rc⟩ : PoolState).larges = L from rfl,
    (findLargeAux_none_iff L 0).mpr hnm]

theorem nil_ne_of_len {x : List Nat} (h : 1 ≤ x.length) : ([] : List Nat) ≠ x := by
  intro hq
  rw [← hq] at h
  simp at h

theorem poolStrEq_false_of_ne (hashFn : List Nat → Nat) (s t : List Nat)
    (hcol : hashFn s = hashFn t → s = t) (hst : ¬ s = t) :
    poolStrEq (((freshPool.intern hashFn s).2).intern hashFn t).2
      (freshPool.intern hashFn s).1
      (((freshPool.intern hashFn s).2).intern hashFn t).1 = false := by
  rcases Nat.lt_or_ge s.length 1 with hs0 | hs1
  · -- s is empty
    rw [@intern_dispatch_empty hashFn freshPool s (by omega)]
    rw [show ((PoolStr.nullPtr, freshPool).2) = freshPool from rfl,
      show ((PoolStr.nullPtr, freshPool).1) = PoolStr.nullPtr from rfl]
    rcases Nat.lt_or_ge t.length 1 with ht0 | ht1
    · exact absurd
        (by rw [List.length_eq_zero.mp (by omega : s.length = 0),
          List.length_eq_zero.mp (by omega : t.length = 0)]) hst
    rcases Nat.lt_or_ge t.length 127 with ht2 | ht2
    · -- t small
      rw [intern_fresh_small ht1 (by omega)]
      have hd2 : (⟨[Page.mk (pageOf [t])], [], 2⟩ : PoolState).deref (.smallPtr 0 0) = t :=
        deref_pageOf_slot rfl (usedLen_single_cap (by omega))
          (by rw [slotOffsetAux, if_pos rfl]) ht1
      rw [poolStrEq, decide_eq_false (by simp)]
      rw [show (⟨[Page.mk (pageOf [t])], [], 2⟩ : PoolState).deref PoolStr.nullPtr = []
        from rfl, hd2]
      rw [decide_eq_false (nil_ne_of_len ht1)]
      rfl
    · -- t large
      rw [intern_fresh_large ht2]
      rw [poolStrEq, decide_eq_false (by simp)]
      rw [show (⟨[], [⟨t.length, hashFn t, t⟩], 2⟩ : PoolState).deref PoolStr.nullPtr = []
        from rfl]
      rw [show (⟨[], [⟨t.length, hashFn t, t⟩], 2⟩ : PoolState).deref (.largePtr 0) =
        t.take t.length from rfl, List.take_length]
      rw [decide_eq_false (nil_ne_of_len (by omega))]
      rfl
  rcases Nat.lt_or_ge s.length 127 with hs2 | hs2
  · -- s small
    rw [intern_fresh_small hs1 (by omega)]
    rcases Nat.lt_or_ge t.length 1 with ht0 | ht1
    · -- t empty
      rw [@intern_dispatch_empty hashFn
        (⟨[Page.mk (pageOf [s])], [], 2⟩ : PoolState) t (by omega)]
      have hd1 : (⟨[Page.mk (pageOf [s])], [], 2⟩ : PoolState).deref (.smallPtr 0 0) = s :=
        deref_pageOf_slot rfl (usedLen_single_cap (by omega))
          (by rw [slotOffsetAux, if_pos rfl]) hs1
      rw [show ((PoolStr.nullPtr, (⟨[Page.mk (pageOf [s])], [], 2⟩ : PoolState)).1) =
        PoolStr.nullPtr from rfl]
      rw [show ((PoolStr.nullPtr, (⟨[Page.mk (pageOf [s])], [], 2⟩ : PoolState)).2) =
        (⟨[Page.mk (pageOf [s])], [], 2⟩ : PoolState) from rfl]
      rw [poolStrEq, decide_eq_false (by simp)]
      rw [hd1,
        show (⟨[Page.mk (pageOf [s])], [], 2⟩ : PoolState).deref PoolStr.nullPtr = []
          from rfl]
      rw [decide_eq_false (fun hq => (nil_ne_of_len hs1) hq.symm)]
      rfl
    rcases Nat.lt_or_ge t.length 127 with ht2 | ht2
    · -- t small: second slot of the same page
      rw [intern_second_small hs1 (by omega) ht1 (by omega) hst [] 2]
      have hd1 : (⟨[Page.mk (pageOf [s, t])], [], 3⟩ : PoolState).deref (.smallPtr 0 0) =
          s :=
        deref_pageOf_slot rfl (usedLen_pair_cap (by omega) (by omega))
          (by rw [slotOffsetAux, if_pos rfl]) hs1
      have hd2 : (⟨[Page.mk (pageOf [s, t])], [], 3⟩ : PoolState).deref
          (.smallPtr 0 (1 + s.length)) = t := by
        refine deref_pageOf_slot rfl (usedLen_pair_cap (by omega) (by omega)) ?_ ht1
        rw [slotOffsetAux, if_neg hst, slotOffsetAux, if_pos rfl]
      rw [poolStrEq]
      rw [decide_eq_false
        (show ¬ (PoolStr.smallPtr 0 0 = PoolStr.smallPtr 0 (1 + s.length)) from by
          intro hq
          injection hq with hpg hof
          omega)]
      rw [hd1, hd2, decide_eq_false hst]
      rfl
    · -- t large
      rw [intern_large_append ht2 (fun e he => absurd he (List.not_mem_nil e))]
      have hd1 : (⟨[Page.mk (pageOf [s])], [] ++ [⟨t.length, hashFn t, t⟩], 3⟩ :
          PoolState).deref (.smallPtr 0 0) = s :=
        deref_pageOf_slot rfl (usedLen_single_cap (by omega))
          (by rw [slotOffsetAux, if_pos rfl]) hs1
      rw [poolStrEq, decide_eq_false (by simp)]
      rw [hd1]
      rw [show (⟨[Page.mk (pageOf [s])], [] ++ [⟨t.length, hashFn t, t⟩], 3⟩ :
        PoolState).deref (.largePtr ([] : List LargeEntry).length) =
        t.take t.length from rfl, List.take_length]
      rw [decide_eq_false hst]
      rfl
  · -- s large
    rw [intern_fresh_large hs2]
    rcases Nat.lt_or_ge t.length 1 with ht0 | ht1
    · -- t empty
      rw [@intern_dispatch_empty hashFn
        (⟨[], [⟨s.length, hashFn s, s⟩], 2⟩ : PoolState) t (by omega)]
      rw [show ((PoolStr.nullPtr, (⟨[], [⟨s.length, hashFn s, s⟩], 2⟩ : PoolState)).1) =
        PoolStr.nullPtr from rfl]
      rw [show ((PoolStr.nullPtr, (⟨[], [⟨s.length, hashFn s, s⟩], 2⟩ : PoolState)).2) =
        (⟨[], [⟨s.length, hashFn s, s⟩], 2⟩ : PoolState) from rfl]
      rw [poolStrEq, decide_eq_false (by simp)]
      rw [show (⟨[], [⟨s.length, hashFn s, s⟩], 2⟩ : PoolState).deref (.largePtr 0) =
        s.take s.length from rfl, List.take_length]
      rw [show (⟨[], [⟨s.length, hashFn s, s⟩], 2⟩ : PoolState).deref PoolStr.nullPtr = []
        from rfl]
      rw [decide_eq_false (fun hq => (nil_ne_of_len (by omega)) hq.symm)]
      rfl
    rcases Nat.lt_or_ge t.length 127 with ht2 | ht2
    · -- t small
      rw [intern_small_on_pageless ht1 (by omega)]
      rw [poolStrEq, decide_eq_false (by simp)]
      rw [show (⟨[Page.mk (pageOf [t])], [⟨s.length, hashFn s, s⟩], 3⟩ :
        PoolState).deref (.largePtr 0) = s.take s.length from rfl, List.take_length]
      have hd2 : (⟨[Page.mk (pageOf [t])], [⟨s.length, hashFn s, s⟩], 3⟩ :
          PoolState).deref (.smallPtr 0 0) = t :=
        deref_pageOf_slot rfl (usedLen_single_cap (by omega))
          (by rw [slotOffsetAux, if_pos rfl]) ht1
      rw [hd2, decide_eq_false hst]
      rfl
    · -- t large, no collision possible
      have hne : ∀ e ∈ [(⟨s.length, hashFn s, s⟩ : LargeEntry)], e.hash ≠ hashFn t := by
        intro e he
        rw [List.mem_singleton.mp he]
        intro hq
        exact hst (hcol hq)
      rw [intern_large_append ht2 hne]
      rw [poolStrEq]
      rw [decide_eq_false (by simp)]
      rw [show (⟨[], [⟨s.length, hashFn s, s⟩] ++ [⟨t.length, hashFn t, t⟩], 3⟩ :
        PoolState).deref (.largePtr 0) = s.take s.length from rfl, List.take_length]
      rw [show (⟨[], [⟨s.length, hashFn s, s⟩] ++ [⟨t.length, hashFn t, t⟩], 3⟩ :
        PoolState).deref (.largePtr ([(⟨s.length, hashFn s, s⟩ : LargeEntry)]).length) =
        t.take t.length from rfl, List.take_length]
      rw [decide_eq_false hst]
      rfl

theorem large_collision_eq (hashFn : List Nat → Nat) {s t : List Nat}
    (hs : 127 ≤ s.length) (ht : 127 ≤ t.length) (hh : hashFn s = hashFn t) :
    poolStrEq (((freshPool.intern hashFn s).2).intern hashFn t).2
      (freshPool.intern hashFn s).1
      (((freshPool.intern hashFn s).2).intern hashFn t).1 = true := by
  rw [intern_fresh_large hs]
  have heq : (⟨[], [⟨s.length, hashFn s, s⟩], 2⟩ : PoolState).intern hashFn t =
      (.largePtr 0, ⟨[], [⟨s.length, hashFn s, s⟩], 3⟩) := by
    rw [intern_dispatch_large ht, PoolState.intern_large]
    rw [show findLargeAux (⟨[], [⟨s.length, hashFn s, s⟩], 2⟩ : PoolState).larges
        (hashFn t) 0 = some 0 from by
      rw [show (⟨[], [⟨s.length, hashFn s, s⟩], 2⟩ : PoolState).larges =
        [⟨s.length, hashFn s, s⟩] from rfl]
      rw [findLargeAux, if_pos hh]]
  rw [show ((PoolStr.largePtr 0, (⟨[], [⟨s.length, hashFn s, s⟩], 2⟩ : PoolState)).2) =
    (⟨[], [⟨s.length, hashFn s, s⟩], 2⟩ : PoolState) from rfl]
  rw [show ((PoolStr.largePtr 0, (⟨[], [⟨s.length, hashFn s, s⟩], 2⟩ : PoolState)).1) =
    PoolStr.largePtr 0 from rfl]
  rw [heq]
  rw [poolStrEq]
  simp

/-- C2, counterexample: handle equality is NOT equivalent to string equality.
Because the large tier matches stored entries by 64-bit hash alone,
`intern(t)` after `intern(s)` returns `s`'s handle whenever `hash(s) =
hash(t)`, so the two handles are pointer-equal while `s ≠ t`.  The first
conjunct refutes the claim quantified over every possible build hash; the
second shows every function into 64-bit hashes (hence any build's seeded
hash) admits such a pair of distinct strings of large-tier length, by
pigeonhole. -/
theorem claim_C2_equality_soundness_cex :
    (¬ ∀ (hashFn : List Nat → Nat), (∀ l, hashFn l < 2 ^ 64) →
        ∀ s t : List Nat,
          (poolStrEq (((freshPool.intern hashFn s).2).intern hashFn t).2
            (freshPool.intern hashFn s).1
            (((freshPool.intern hashFn s).2).intern hashFn t).1 = true) ↔ s = t) ∧
      (∀ hashFn : List Nat → Nat, (∀ l, hashFn l < 2 ^ 64) →
        ∃ s t : List Nat, s ≠ t ∧
          poolStrEq (((freshPool.intern hashFn s).2).intern hashFn t).2
            (freshPool.intern hashFn s).1
            (((freshPool.intern hashFn s).2).intern hashFn t).1 = true) := by
  have hsecond : ∀ hashFn : List Nat → Nat, (∀ l, hashFn l < 2 ^ 64) →
      ∃ s t : List Nat, s ≠ t ∧
        poolStrEq (((freshPool.intern hashFn s).2).intern hashFn t).2
          (freshPool.intern hashFn s).1
          (((freshPool.intern hashFn s).2).intern hashFn t).1 = true := by
    intro hashFn hb
    obtain ⟨s, t, hst, hs, ht, hh⟩ := hash_collision_exists hashFn hb
    exact ⟨s, t, hst, large_collision_eq hashFn hs ht hh⟩
  refine ⟨?_, hsecond⟩
  intro hcl
  obtain ⟨s, t, hst, heqt⟩ := hsecond (fun _ => 0) (fun l => pow_pos (by decide) 64)
  exact hst ((hcl (fun _ => 0) (fun l => pow_pos (by decide) 64) s t).mp heqt)

/-- C2, amended: on a fresh pool, `intern(s) == intern(t) ⇔ s = t` holds
provided `s` and `t` do not collide under the build's 64-bit hash (in
particular always when either string is empty or of small-tier length
1..=126, since only length ≥ 127 strings are matched by hash alone). -/
theorem claim_C2_equality_soundness_amended (hashFn : List Nat → Nat) (s t : List Nat)
    (hcol : hashFn s = hashFn t → s = t) :
    (poolStrEq (((freshPool.intern hashFn s).2).intern hashFn t).2
        (freshPool.intern hashFn s).1
        (((freshPool.intern hashFn s).2).intern hashFn t).1 = true) ↔ s = t := by
  constructor
  · intro hpe
    by_contra hst
    rw [poolStrEq_false_of_ne hashFn s t hcol hst] at hpe
    exact Bool.false_ne_true hpe
  · intro hseq
    subst hseq
    have h := @intern_rerun hashFn freshPool s (freshPool_inv hashFn (fun _ => True))
    rw [h, poolStrEq]
    simp

theorem claim_C2_amended_witness :
    (List.length [4] = List.length [4, 4] → [4] = [4, 4]) ∧
      ((poolStrEq
          (((freshPool.intern List.length [4]).2).intern List.length [4, 4]).2
          (freshPool.intern List.length [4]).1
          (((freshPool.intern List.length [4]).2).intern List.length [4, 4]).1 = true) ↔
        [4] = [4, 4]) :=
  ⟨by decide, claim_C2_equality_soundness_amended List.length [4] [4, 4] (by decide)⟩

theorem find_none_of_inv {hashFn : List Nat → Nat} {M : List (List Nat)}
    {str : List Nat} (st : PoolState) (hinv : st.Inv hashFn (· ∈ M))
    (hnm : str ∉ M) (hcol : ∀ u ∈ M, hashFn u = hashFn str → u = str)
    (hne : 1 ≤ str.length) :
    st.find hashFn str = (none, st) := by
  rcases Nat.lt_or_ge str.length 127 with h2 | h2
  · rw [find_dispatch_small hne (by omega), PoolState.find_small]
    have hn : findSmallAux st.pages str 0 = none := by
      apply findSmallAux_none hne
      intro pg hpg
      obtain ⟨slots, hwf, hcap, hent, hP⟩ := hinv.1 pg hpg
      exact ⟨slots, hwf, hcap, hent, fun hm => hnm (hP str hm)⟩
    rw [hn]
  · rw [find_dispatch_large h2, PoolState.find_large]
    have hn : findLargeAux st.larges (hashFn str) 0 = none := by
      apply (findLargeAux_none_iff _ _).mpr
      intro e he hq
      obtain ⟨_, hhash, _, hP⟩ := hinv.2 e he
      have hd : e.data = str := hcol e.data hP (by rw [← hhash, hq])
      exact hnm (hd ▸ hP)
    rw [hn]

theorem find_after_intern {hashFn : List Nat → Nat} {M : List (List Nat)}
    {str : List Nat} (st : PoolState) (hinv : st.Inv hashFn (· ∈ M))
    (hcol : ∀ u ∈ M, hashFn u = hashFn str → u = str) :
    ∃ h, (((st.intern hashFn str).2).find hashFn str).1 = some h ∧
      ((((st.intern hashFn str).2).find hashFn str).2).deref h = str := by
  rcases Nat.lt_or_ge str.length 1 with hlen | hlen
  · have hstr : str = [] := List.length_eq_zero.mp (by omega)
    rw [@intern_dispatch_empty hashFn st str (by omega)]
    rw [show ((PoolStr.nullPtr, st).2) = st from rfl]
    rw [@find_dispatch_empty hashFn st str (by omega)]
    exact ⟨.nullPtr, rfl, by rw [hstr]; rfl⟩
  rcases Nat.lt_or_ge str.length 127 with hlen2 | hlen2
  · rw [intern_dispatch_small hlen (by omega)]
    have hpages : ∀ pg ∈ st.pages, pg.Inv (fun _ => True) := by
      intro pg hpg
      obtain ⟨slots, hwf, hcap, hent, _⟩ := hinv.1 pg hpg
      exact ⟨slots, hwf, hcap, hent, fun c hc => trivial⟩
    obtain ⟨j, off, ents, hh, hgd, hlen3, hslice, _, _, _, _, hfind⟩ :=
      intern_small_spec hlen (by omega) trivial hpages
    refine ⟨(st.intern_small str).1, ?_, ?_⟩
    · rw [@find_dispatch_small hashFn (st.intern_small str).2 str hlen (by omega),
        PoolState.find_small, hfind]
    · rw [@find_dispatch_small hashFn (st.intern_small str).2 str hlen (by omega),
        PoolState.find_small, hfind]
      rw [hh]
      exact deref_small hgd hlen3 hslice hlen
  · rw [intern_dispatch_large hlen2]
    rcases hcase : findLargeAux st.larges (hashFn str) 0 with _ | i
    · -- appended
      have heq : st.intern_large hashFn str =
          (.largePtr st.larges.length,
            ⟨st.pages, st.larges ++ [⟨str.length, hashFn str, str⟩],
              st.refCount + 1⟩) := by
        rw [PoolState.intern_large, hcase]
      rw [heq]
      have hfindeq : (⟨st.pages, st.larges ++ [⟨str.length, hashFn str, str⟩],
          st.refCount + 1⟩ : PoolState).find hashFn str =
          (some (.largePtr (0 + st.larges.length)),
            ⟨st.pages, st.larges ++ [⟨str.length, hashFn str, str⟩],
              st.refCount + 1 + 1⟩) := by
        rw [find_dispatch_large hlen2, PoolState.find_large]
        rw [show (⟨st.pages, st.larges ++ [⟨str.length, hashFn str, str⟩],
          st.refCount + 1⟩ : PoolState).larges =
          st.larges ++ [⟨str.length, hashFn str, str⟩] from rfl]
        rw [findLargeAux_append_none st.larges [⟨str.length, hashFn str, str⟩] 0 hcase]
        rw [findLargeAux, if_pos rfl]
      rw [show ((PoolStr.largePtr st.larges.length,
        (⟨st.pages, st.larges ++ [⟨str.length, hashFn str, str⟩], st.refCount + 1⟩ :
          PoolState)).2) =
        (⟨st.pages, st.larges ++ [⟨str.length, hashFn str, str⟩], st.refCount + 1⟩ :
          PoolState) from rfl]
      rw [hfindeq]
      refine ⟨.largePtr (0 + st.larges.length), rfl, ?_⟩
      show (⟨st.pages, st.larges ++ [⟨str.length, hashFn str, str⟩],
        st.refCount + 1 + 1⟩ : PoolState).deref (.largePtr (0 + st.larges.length)) = str
      rw [deref_large]
      rw [show (0 + st.larges.length) = st.larges.length from by omega]
      rw [show ((⟨st.pages, st.larges ++ [⟨str.length, hashFn str, str⟩],
        st.refCount + 1 + 1⟩ : PoolState)).larges =
        st.larges ++ [⟨str.length, hashFn str, str⟩] from rfl]
      rw [getD_concat]
      exact List.take_length str
    · -- found by stored hash
      have heq : st.intern_large hashFn str =
          (.largePtr i, ⟨st.pages, st.larges, st.refCount + 1⟩) := by
        rw [PoolState.intern_large, hcase]
      rw [heq]
      have hfindeq : (⟨st.pages, st.larges, st.refCount + 1⟩ : PoolState).find hashFn str =
          (some (.largePtr i), ⟨st.pages, st.larges, st.refCount + 1 + 1⟩) := by
        rw [find_dispatch_large hlen2, PoolState.find_large]
        rw [show (⟨st.pages, st.larges, st.refCount + 1⟩ : PoolState).larges = st.larges
          from rfl]
        rw [hcase]
      rw [show ((PoolStr.largePtr i,
        (⟨st.pages, st.larges, st.refCount + 1⟩ : PoolState)).2) =
        (⟨st.pages, st.larges, st.refCount + 1⟩ : PoolState) from rfl]
      rw [hfindeq]
      refine ⟨.largePtr i, rfl, ?_⟩
      show (⟨st.pages, st.larges, st.refCount + 1 + 1⟩ : PoolState).deref (.largePtr i) =
        str
      rw [deref_large]
      rw [show ((⟨st.pages, st.larges, st.refCount + 1 + 1⟩ : PoolState)).larges =
        st.larges from rfl]
      obtain ⟨_, hlt, hhash, _⟩ := findLargeAux_some_spec st.larges 0 i hcase
      rw [Nat.sub_zero] at hlt hhash
      have hmem := getD_mem_of_lt hlt
      obtain ⟨hlen4, hhash2, _, hP⟩ := hinv.2 _ hmem
      have hdata : (st.larges.getD i emptyLarge).data = str :=
        hcol _ hP (by rw [← hhash2, hhash])
      rw [hlen4, hdata, List.take_length]

theorem find_some_of_collision (hashFn : List Nat → Nat) {s t : List Nat}
    (hs : 127 ≤ s.length) (ht : 127 ≤ t.length) (hh : hashFn s = hashFn t) :
    ((internAll hashFn freshPool [t]).find hashFn s).1 ≠ none := by
  rw [internAll, internAll, intern_fresh_large ht]
  rw [show ((PoolStr.largePtr 0, (⟨[], [⟨t.length, hashFn t, t⟩], 2⟩ : PoolState)).2) =
    (⟨[], [⟨t.length, hashFn t, t⟩], 2⟩ : PoolState) from rfl]
  have hfindeq : (⟨[], [⟨t.length, hashFn t, t⟩], 2⟩ : PoolState).find hashFn s =
      (some (.largePtr 0), ⟨[], [⟨t.length, hashFn t, t⟩], 3⟩) := by
    rw [find_dispatch_large hs, PoolState.find_large]
    rw [show (⟨[], [⟨t.length, hashFn t, t⟩], 2⟩ : PoolState).larges =
      [⟨t.length, hashFn t, t⟩] from rfl]
    rw [findLargeAux, if_pos hh.symm]
  rw [hfindeq]
  simp

/-- C5, counterexample: a never-interned string can still be found.  The
large tier's `find` matches stored entries by 64-bit hash alone, so after
interning only `t`, `find(s)` returns `t`'s handle for any hash-colliding
`s ≠ t` instead of the claimed `none`.  The first conjunct refutes the claim
quantified over every possible build hash; the second shows every function
into 64-bit hashes admits such a pair among large-tier strings, by
pigeonhole. -/
theorem claim_C5_find_does_not_insert_cex :
    (¬ ∀ (hashFn : List Nat → Nat), (∀ l, hashFn l < 2 ^ 64) →
        ∀ (L : List (List Nat)) (s : List Nat), s ∉ L →
          ((internAll hashFn freshPool L).find hashFn s).1 = none) ∧
      (∀ hashFn : List Nat → Nat, (∀ l, hashFn l < 2 ^ 64) →
        ∃ s t : List Nat, s ≠ t ∧ s ∉ [t] ∧
          ((internAll hashFn freshPool [t]).find hashFn s).1 ≠ none) := by
  have hsecond : ∀ hashFn : List Nat → Nat, (∀ l, hashFn l < 2 ^ 64) →
      ∃ s t : List Nat, s ≠ t ∧ s ∉ [t] ∧
        ((internAll hashFn freshPool [t]).find hashFn s).1 ≠ none := by
    intro hashFn hb
    obtain ⟨s, t, hst, hs, ht, hh⟩ := hash_collision_exists hashFn hb
    exact ⟨s, t, hst, by simp [hst], find_some_of_collision hashFn hs ht hh⟩
  refine ⟨?_, hsecond⟩
  intro hcl
  obtain ⟨s, t, hst, hmem, hne⟩ := hsecond (fun _ => 0) (fun l => pow_pos (by decide) 64)
  exact hne (hcl (fun _ => 0) (fun l => pow_pos (by decide) 64) [t] s hmem)

/-- C5, amended: `find` never inserts — it leaves the page list and the
large-entry list of any pool untouched, and when it returns `none` the whole
state is unchanged.  On a pool built by interning the strings of `L`, a
non-empty string `s ∉ L` that does not hash-collide with any member of `L`
is not found; after `intern(s)`, `find(s)` returns a handle that
dereferences to `s` (again given collision-freedom; the empty string is
covered by its sentinel, claim C6). -/
theorem claim_C5_find_does_not_insert_amended (hashFn : List Nat → Nat)
    (L : List (List Nat)) (str : List Nat)
    (hcol : ∀ u ∈ L, hashFn u = hashFn str → u = str) :
    (str ∉ L → 1 ≤ str.length →
      (internAll hashFn freshPool L).find hashFn str =
        (none, internAll hashFn freshPool L)) ∧
      (∀ st0 : PoolState,
        ((st0.find hashFn str).2).pages = st0.pages ∧
          ((st0.find hashFn str).2).larges = st0.larges ∧
          ((st0.find hashFn str).1 = none → (st0.find hashFn str).2 = st0)) ∧
      (∃ h,
        ((((internAll hashFn freshPool L).intern hashFn str).2).find hashFn str).1 =
            some h ∧
          (((((internAll hashFn freshPool L).intern hashFn str).2).find hashFn
            str).2).deref h = str) := by
  have hinv : (internAll hashFn freshPool L).Inv hashFn (· ∈ L) :=
    internAll_inv L freshPool (freshPool_inv hashFn _) (fun x hx => hx)
  refine ⟨?_, fun st0 => find_frame hashFn st0 str, ?_⟩
  · intro hnm hne
    exact find_none_of_inv (internAll hashFn freshPool L) hinv hnm hcol hne
  · exact find_after_intern (internAll hashFn freshPool L) hinv hcol

theorem claim_C5_amended_witness :
    (∀ u ∈ [[1, 2, 3]], List.length u = List.length [5] → u = [5]) ∧
      (([5] ∉ [[1, 2, 3]] → 1 ≤ ([5] : List Nat).length →
        (internAll List.length freshPool [[1, 2, 3]]).find List.length [5] =
          (none, internAll List.length freshPool [[1, 2, 3]])) ∧
      (∀ st0 : PoolState,
        ((st0.find List.length [5]).2).pages = st0.pages ∧
          ((st0.find List.length [5]).2).larges = st0.larges ∧
          ((st0.find List.length [5]).1 = none → (st0.find List.length [5]).2 = st0)) ∧
      (∃ h,
        ((((internAll List.length freshPool [[1, 2, 3]]).intern List.length [5]).2).find
            List.length [5]).1 = some h ∧
          (((((internAll List.length freshPool [[1, 2, 3]]).intern List.length
            [5]).2).find List.length [5]).2).deref h = [5])) :=
  ⟨by decide,
    claim_C5_find_does_not_insert_amended List.length [[1, 2, 3]] [5] (by decide)⟩

/-- C3: the exact page-fill boundary, evaluated on the model.  Interning
eight distinct strings of length 125 on a fresh pool fills one page's
payload to the last byte (8 * 126 = PAGE_CAPACITY = 1008 bytes, no
terminator left).  On that byte-full page, the UNBOUNDED slot walk of
lib.rs's `find_1_127` / `intern_1_127` reaches `i = PAGE_CAPACITY` and
indexes `page.entries[1008]` — an out-of-bounds array access that panics in
Rust (the `none` result below) — so lib.rs violates the claim: this is the
code bug.  The bounded walk of small.rs's `Page::find` / `Page::try_intern`
(`while i < PAGE_CAPACITY`), which the model's pool operations use, behaves
exactly as the claim states: the walk stops at the page boundary, the ninth
(short) string is interned at offset 0 of a freshly appended second page,
and all nine strings are subsequently found and dereference to their
originals. -/
theorem claim_C3_page_fill_boundary :
    (8 * 126 = PAGE_CAPACITY) ∧
      ((internAll (fun _ => 0) freshPool ((List.range 8).map (fun k => List.replicate 125 (k + 1)))).pages.length = 1) ∧
      (pageWalkUnbounded ((internAll (fun _ => 0) freshPool ((List.range 8).map (fun k => List.replicate 125 (k + 1)))).pages.getD 0 emptyPage).entries ([121, 105, 107, 101, 115] : List Nat) 0 = none) ∧
      (pageFindFrom ((internAll (fun _ => 0) freshPool ((List.range 8).map (fun k => List.replicate 125 (k + 1)))).pages.getD 0 emptyPage).entries ([121, 105, 107, 101, 115] : List Nat) 0 = none) ∧
      (((internAll (fun _ => 0) freshPool ((List.range 8).map (fun k => List.replicate 125 (k + 1)))).intern (fun _ => 0) ([121, 105, 107, 101, 115] : List Nat)).1 = PoolStr.smallPtr 1 0) ∧
      ((((internAll (fun _ => 0) freshPool ((List.range 8).map (fun k => List.replicate 125 (k + 1)))).intern (fun _ => 0) ([121, 105, 107, 101, 115] : List Nat)).2).pages.length = 2) ∧
      ((((List.range 8).map (fun k => List.replicate 125 (k + 1))) ++ [([121, 105, 107, 101, 115] : List Nat)]).all
        (fun x =>
          match (((internAll (fun _ => 0) freshPool ((List.range 8).map (fun k => List.replicate 125 (k + 1)))).intern (fun _ => 0) ([121, 105, 107, 101, 115] : List Nat)).2).find (fun _ => 0) x with
          | (some h, st3) => decide (st3.deref h = x)
          | (none, _) => false) = true) := by
  decide

/-- C8: large-tier matching is by stored 64-bit hash only.  For a string of
length ≥ 127: when no stored entry's hash equals `hash(s)`, `find` returns
`none` without touching the pool and `intern` appends a fresh entry at the
tail; when entry `i` is the first whose STORED HASH equals `hash(s)` — no
condition whatsoever on its bytes — both `find` and `intern` return the
handle to that entry's `len_zero` anchor and the pool gains only a reference
count.  (This is the behaviour that the counterexamples of C1, C2 and C5
exploit under hash collisions.) -/
theorem claim_C8_large_hash_only_matching (hashFn : List Nat → Nat) (st : PoolState)
    (str : List Nat) (hlen : 127 ≤ str.length) :
    ((∀ e ∈ st.larges, e.hash ≠ hashFn str) →
      st.find hashFn str = (none, st) ∧
        st.intern hashFn str =
          (.largePtr st.larges.length,
            ⟨st.pages, st.larges ++ [⟨str.length, hashFn str, str⟩],
              st.refCount + 1⟩)) ∧
      (∀ i, i < st.larges.length →
        (st.larges.getD i emptyLarge).hash = hashFn str →
        (∀ e ∈ st.larges.take i, e.hash ≠ hashFn str) →
        (st.find hashFn str).1 = some (.largePtr i) ∧
          (st.find hashFn str).2 = ⟨st.pages, st.larges, st.refCount + 1⟩ ∧
          (st.intern hashFn str).1 = .largePtr i) := by
  constructor
  · intro hnm
    constructor
    · rw [find_dispatch_large hlen, PoolState.find_large,
        (findLargeAux_none_iff st.larges 0).mpr hnm]
    · rw [intern_dispatch_large hlen, PoolState.intern_large,
        (findLargeAux_none_iff st.larges 0).mpr hnm]
  · intro i hi hhash hbefore
    have hfirst := findLargeAux_first st.larges 0 i hi hhash hbefore
    rw [Nat.zero_add] at hfirst
    refine ⟨?_, ?_, ?_⟩
    · rw [find_dispatch_large hlen, PoolState.find_large, hfirst]
    · rw [find_dispatch_large hlen, PoolState.find_large, hfirst]
    · rw [intern_dispatch_large hlen, PoolState.intern_large, hfirst]

theorem claim_C8_witness :
    ((⟨[], [⟨127, 5, List.replicate 127 1⟩, ⟨127, 7, List.replicate 127 2⟩], 5⟩ :
        PoolState).find (fun _ => 7) (List.replicate 127 3)).1 =
        some (.largePtr 1) ∧
      ((⟨[], [⟨127, 5, List.replicate 127 1⟩, ⟨127, 7, List.replicate 127 2⟩], 5⟩ :
        PoolState).find (fun _ => 7) (List.replicate 127 3)).2 =
        ⟨[], [⟨127, 5, List.replicate 127 1⟩, ⟨127, 7, List.replicate 127 2⟩], 5 + 1⟩ ∧
      ((⟨[], [⟨127, 5, List.replicate 127 1⟩, ⟨127, 7, List.replicate 127 2⟩], 5⟩ :
        PoolState).intern (fun _ => 7) (List.replicate 127 3)).1 = .largePtr 1 :=
  (claim_C8_large_hash_only_matching (fun _ => 7)
      ⟨[], [⟨127, 5, List.replicate 127 1⟩, ⟨127, 7, List.replicate 127 2⟩], 5⟩
      (List.replicate 127 3) (by decide)).2 1 (by decide) (by decide) (by decide)

end Strpool
